import Mathlib

/-!
Verification development for the EaMo-Converter repository.

The repository contains two parallel implementations of the same
Telegram affiliate-link bot:

* `src/api/index.js` — a webhook (serverless) handler.  Its rewriter
  (`convertToAffiliateLink`) performs query surgery with `URL` /
  `URLSearchParams`; its classifier is the bare regex
  `/amazon\.(com|co\.uk|de|fr|es|it|ca|com\.au|co\.jp|cn|in)/i` tested
  against the whole URL string; its resolver `resolveUrl` is
  `axios.get(url, { maxRedirects: 10 })`.
* `src/unnamed/part_000` — a polling bot.  Its rewriter matches
  `/(amazon\.(...tlds...))\/.*(?:dp|gp\/product)\/([A-Z0-9]{10})/i` and
  emits the minimal URL `https://{domain}/dp/{ASIN}?tag={tag}`; its
  resolver `resolveShortAmazonLink` is gated by the shortener allow-list
  regex `/(amzn\.to|a\.co|amzn-to\.co|amazon\.in\/gp\/product)\//i`.

Strings are modelled as `List Char`.  The embedding is exact for the
ASCII regular expressions in the source.  For the WHATWG `URL` /
`URLSearchParams` pair used by the webhook rewriter the embedding covers
http(s) URLs already in normal form: lowercase scheme, non-empty host
without userinfo/port, no `#` fragment and no percent-encoding (on that
domain `new URL` and `URLSearchParams` perform no normalisation, so
parse/serialise below agree with them character for character).
JavaScript whitespace (`\s`, `trim`) is modelled by the ASCII whitespace
characters, which is exact for the ASCII strings handled here.
-/

namespace EaMo

/-! ### Character classes (ASCII semantics of the source regexes) -/

/-- Character class `[a-zA-Z0-9]` of the source regexes. -/
def isAlnumC (c : Char) : Bool :=
  ('a' ≤ c && c ≤ 'z') || ('A' ≤ c && c ≤ 'Z') || ('0' ≤ c && c ≤ '9')

/-- Character class `[0-9]`. -/
def isDigitC (c : Char) : Bool := '0' ≤ c && c ≤ '9'

/-- Model of JavaScript `\s` (restricted to the ASCII whitespace
characters, exact for the ASCII messages handled by the bot). -/
def isSpaceC (c : Char) : Bool :=
  c = ' ' || c = '\t' || c = '\n' || c = '\r'

/-- ASCII lower-casing, the effect of a case-insensitive (`/i`) regex
comparison on ASCII patterns. -/
def lowerC (c : Char) : Char :=
  if 'A' ≤ c && c ≤ 'Z' then Char.ofNat (c.toNat + 32) else c

/-- Lower-case a whole string. -/
def lowerS (l : List Char) : List Char := l.map lowerC

/-- Abbreviation turning a string literal into its character list. -/
def cs (s : String) : List Char := s.toList

/-! ### Generic list-of-characters utilities -/

/-- `listStartsWith p l` : `l` starts with the literal pattern `p`
(case-sensitive). -/
def listStartsWith : List Char → List Char → Bool
  | [], _ => true
  | _ :: _, [] => false
  | p :: ps, c :: chs => p == c && listStartsWith ps chs

/-- Case-insensitive prefix test: the pattern `p` (given lower-case)
against the subject `l`. -/
def lstartsCI : List Char → List Char → Bool
  | [], _ => true
  | _ :: _, [] => false
  | p :: ps, c :: chs => p == lowerC c && lstartsCI ps chs

/-- Case-insensitive substring test (subject scanned left to right),
the effect of `regex.test` for a literal-alternation pattern. -/
def containsCI (pat : List Char) : List Char → Bool
  | [] => lstartsCI pat []
  | c :: rest => lstartsCI pat (c :: rest) || containsCI pat rest

/-- Split a character list on every occurrence of `sep`
(`"a-b-".split('-') = ["a","b",""]` shape: like `String.split`). -/
def splitOnChar (sep : Char) : List Char → List (List Char)
  | [] => [[]]
  | c :: rest =>
    let r := splitOnChar sep rest
    if c == sep then [] :: r
    else
      match r with
      | [] => [[c]]
      | s :: ss => (c :: s) :: ss

/-- Break a list at the first occurrence of `sep`:
`(part before, some (part after))`, or `(l, none)` when absent. -/
def breakAt (sep : Char) : List Char → List Char × Option (List Char)
  | [] => ([], none)
  | c :: rest =>
    if c == sep then ([], some rest)
    else
      let p := breakAt sep rest
      (c :: p.1, p.2)

/-- Take the longest prefix on which `stop` is false, returning it
together with the remainder. -/
def spanNot (stop : Char → Bool) : List Char → List Char × List Char
  | [] => ([], [])
  | c :: rest =>
    if stop c then ([], c :: rest)
    else
      let p := spanNot stop rest
      (c :: p.1, p.2)

/-- Model of `String.prototype.trim` (ASCII whitespace). -/
def trimS (l : List Char) : List Char :=
  ((l.dropWhile isSpaceC).reverse.dropWhile isSpaceC).reverse

/-! ### Tag validator

Both files define the same function:

```js
function isValidAmazonTag(tag) {
  const tagRegex = /^[a-zA-Z0-9]+(?:-[a-zA-Z0-9]+)*-[0-9]{1,3}$/;
  return tagRegex.test(tag);
}
```

The character classes `[a-zA-Z0-9]`, `[0-9]` and the literal `-` are
pairwise disjoint, so a string matches the anchored regex iff splitting
it on `-` yields at least two segments, every segment but the last is a
non-empty alphanumeric run, and the last segment is one to three
digits (the `(?:-[a-zA-Z0-9]+)*` star must stop exactly before the last
hyphen for the anchored `-[0-9]{1,3}$` tail to fit).  The definition
below is that decomposition of the regex. -/

/-- One `[a-zA-Z0-9]+` segment of the tag regex. -/
def okSegment (s : List Char) : Bool := !s.isEmpty && s.all isAlnumC

/-- The final `[0-9]{1,3}` segment of the tag regex. -/
def okNumSeg (s : List Char) : Bool :=
  !s.isEmpty && decide (s.length ≤ 3) && s.all isDigitC

/-- Check the hyphen-split segments: all but the last must satisfy
`okSegment`, the last `okNumSeg`; at least one leading segment. -/
def tagSegsAux : List (List Char) → Bool
  | [] => false
  | [d] => okNumSeg d
  | s :: rest => okSegment s && tagSegsAux rest

/-- At least two segments: a leading `okSegment` then `tagSegsAux`. -/
def tagSegs : List (List Char) → Bool
  | [] => false
  | [_] => false
  | s :: rest => okSegment s && tagSegsAux rest

/-- `isValidAmazonTag` of both source files (the anchored regex
`^[a-zA-Z0-9]+(?:-[a-zA-Z0-9]+)*-[0-9]{1,3}$`). -/
def isValidAmazonTag (l : List Char) : Bool :=
  tagSegs (splitOnChar '-' l)

/-! ### URL model for the webhook rewriter (`api/index.js`)

`convertToAffiliateLink` in `api/index.js`:

```js
function convertToAffiliateLink(url, tag) {
  if (!tag) { return url; }
  try {
    const urlObj = new URL(url);
    const params = new URLSearchParams(urlObj.search);
    params.delete("tag"); params.delete("linkCode");
    params.delete("ascsubtag"); params.delete("creativeASIN");
    params.delete("ref_");
    params.set("tag", tag);
    urlObj.search = params.toString();
    return urlObj.toString();
  } catch (e) { return url; }
}
```
-/

/-- Parsed URL: scheme, host, path (starting with `/`), and the query
as an ordered key/value list, exactly the data `URL`/`URLSearchParams`
expose to the rewriter. -/
structure UrlObj where
  scheme : List Char
  host : List Char
  path : List Char
  query : List (List Char × List Char)
deriving DecidableEq

/-- Parse one `k=v` query piece (split at the first `=`; a piece with
no `=` becomes a key with empty value, as `URLSearchParams` does). -/
def parseParam (piece : List Char) : List Char × List Char :=
  match breakAt '=' piece with
  | (k, some v) => (k, v)
  | (k, none) => (k, [])

/-- Parse a query string: split on `&`, drop empty pieces (as
`URLSearchParams` does), parse each piece. -/
def parseQuery (qs : List Char) : List (List Char × List Char) :=
  (splitOnChar '&' qs).filterMap
    (fun piece => if piece.isEmpty then none else some (parseParam piece))

/-- Split off the scheme: accept exactly `http://` or `https://`
(lower-case; URLs in the pipeline are produced by the case-sensitive
extraction regex `https?:\/\/`). Anything else is not parseable here
and takes the identity fallback, like the `catch` branch. -/
def schemeSplit (l : List Char) : Option (List Char × List Char) :=
  if listStartsWith (cs "http://") l then some (cs "http", l.drop 7)
  else if listStartsWith (cs "https://") l then some (cs "https", l.drop 8)
  else none

/-- Parse a URL into `UrlObj` (the `new URL(url)` of the source on the
normal-form domain described in the module docstring).  An empty host
is invalid, as it is for the WHATWG parser on http(s) URLs; an absent
path is normalised to `/`, as `URL` does. -/
def parseUrl (l : List Char) : Option UrlObj :=
  match schemeSplit l with
  | none => none
  | some (sch, rest) =>
    let p := spanNot (fun c => c == '/' || c == '?') rest
    if p.1.isEmpty then none
    else
      match p.2 with
      | [] => some ⟨sch, p.1, cs "/", []⟩
      | c :: rest2 =>
        if c == '?' then some ⟨sch, p.1, cs "/", parseQuery rest2⟩
        else
          let q := spanNot (fun ch => ch == '?') (c :: rest2)
          match q.2 with
          | [] => some ⟨sch, p.1, q.1, []⟩
          | _ :: qs => some ⟨sch, p.1, q.1, parseQuery qs⟩

/-- Serialise a query list (`URLSearchParams.toString` on the
percent-encoding-free domain): `k=v` pieces joined by `&`. -/
def queryStr : List (List Char × List Char) → List Char
  | [] => []
  | [(k, v)] => k ++ '=' :: v
  | (k, v) :: rest => k ++ '=' :: v ++ '&' :: queryStr rest

/-- Serialise a `UrlObj` (`urlObj.toString()`): empty query yields no
`?`, matching `urlObj.search = ""`. -/
def serializeUrl (u : UrlObj) : List Char :=
  u.scheme ++ (':' :: '/' :: '/' ::
    (u.host ++ u.path ++
      (match u.query with
       | [] => []
       | q => '?' :: queryStr q)))

/-- The affiliate-related query keys deleted by the webhook rewriter. -/
def isAffKey (k : List Char) : Bool :=
  k == cs "tag" || k == cs "linkCode" || k == cs "ascsubtag" ||
  k == cs "creativeASIN" || k == cs "ref_"

/-- Remove every parameter whose key is affiliate-related (the five
`params.delete` calls). -/
def stripAff (q : List (List Char × List Char)) :
    List (List Char × List Char) :=
  q.filter (fun p => !isAffKey p.1)

/-- `convertToAffiliateLink` of `api/index.js`: query surgery.  A
falsy tag (`undefined` or the empty string) is the identity; an
unparseable URL takes the `catch` identity fallback; otherwise the
affiliate keys are deleted and `tag` appended (`params.set` appends
because `tag` was just deleted). -/
def convertToAffiliateLink_api (url : List Char) (tag : Option (List Char)) :
    List Char :=
  match tag with
  | none => url
  | some t =>
    if t.isEmpty then url
    else
      match parseUrl url with
      | none => url
      | some u =>
        serializeUrl ⟨u.scheme, u.host, u.path,
          stripAff u.query ++ [(cs "tag", t)]⟩

/-! ### The polling bot's rewriter (`part_000`)

```js
function convertToAffiliateLink(url, tag) {
  if (!tag) { return url; }
  const amazonLongRegex =
    /(amazon\.(com|co\.uk|de|fr|es|it|ca|com\.au|co\.jp|cn|in))\/.*(?:dp|gp\/product)\/([A-Z0-9]{10})/i;
  const match = url.match(amazonLongRegex);
  if (match) {
    const domain = match[1];
    const asin = match[3];
    return `https://${domain}/dp/${asin}?tag=${tag}`;
  }
  return url;
}
```

The matcher below implements the backtracking semantics of this regex:
leftmost occurrence of `amazon.` (case-insensitive); the TLD
alternation tried in source order, an alternative being retained only
if the rest of the pattern succeeds after it; `.*` greedy, so the
`(?:dp|gp\/product)\/[A-Z0-9]{10}` block matches at its rightmost
possible position; captures keep their original case. -/

/-- The marketplace TLD alternation, in source order. -/
def tlds : List (List Char) :=
  [cs "com", cs "co.uk", cs "de", cs "fr", cs "es", cs "it", cs "ca",
   cs "com.au", cs "co.jp", cs "cn", cs "in"]

/-- Grab exactly ten `[A-Z0-9]` (case-insensitive, hence alphanumeric)
characters — the ASIN capture. -/
def grab10Alnum (l : List Char) : Option (List Char) :=
  if decide ((l.take 10).length = 10) && (l.take 10).all isAlnumC then
    some (l.take 10)
  else none

/-- Try the `(?:dp|gp\/product)\/([A-Z0-9]{10})` block at this exact
position. -/
def tryDpAt (l : List Char) : Option (List Char) :=
  if lstartsCI (cs "dp/") l then grab10Alnum (l.drop 3)
  else if lstartsCI (cs "gp/product/") l then grab10Alnum (l.drop 11)
  else none

/-- Rightmost position at which the product block matches (the greedy
`.*` backtracks from the end of the string). -/
def lastDpMatch : List Char → Option (List Char)
  | [] => none
  | c :: rest =>
    match lastDpMatch rest with
    | some a => some a
    | none => tryDpAt (c :: rest)

/-- Try the TLD alternatives in order at the position just after
`amazon.`; an alternative succeeds only if it is followed by `/` and
the product block matches somewhere after that slash.  Returns the
original-case TLD text and the ASIN capture. -/
def tryTlds : List (List Char) → List Char → Option (List Char × List Char)
  | [], _ => none
  | t :: ts, rest =>
    if lstartsCI t rest then
      match rest.drop t.length with
      | [] => tryTlds ts rest
      | c :: tail =>
        if c == '/' then
          match lastDpMatch tail with
          | some a => some (rest.take t.length, a)
          | none => tryTlds ts rest
        else tryTlds ts rest
    else tryTlds ts rest

/-- Try the whole long-link pattern at this position: `amazon.`
(case-insensitive) then a TLD alternative.  Returns the original-case
`match[1]` (domain) and `match[3]` (ASIN). -/
def tryAmazonAt (l : List Char) : Option (List Char × List Char) :=
  if lstartsCI (cs "amazon.") l then
    match tryTlds tlds (l.drop 7) with
    | some (tld, a) => some (l.take 7 ++ tld, a)
    | none => none
  else none

/-- `url.match(amazonLongRegex)` (and `amazonLongLinkRegex.test`):
leftmost position at which the pattern matches. -/
def amazonLongMatch : List Char → Option (List Char × List Char)
  | [] => none
  | c :: rest =>
    match tryAmazonAt (c :: rest) with
    | some r => some r
    | none => amazonLongMatch rest

/-- `convertToAffiliateLink` of `part_000`: minimal reconstruction
`https://{domain}/dp/{ASIN}?tag={tag}` when the long-link regex
matches, identity otherwise (and identity on a falsy tag). -/
def convertToAffiliateLink_bot (url : List Char) (tag : Option (List Char)) :
    List Char :=
  match tag with
  | none => url
  | some t =>
    if t.isEmpty then url
    else
      match amazonLongMatch url with
      | some (domain, asin) =>
        cs "https://" ++ domain ++ cs "/dp/" ++ asin ++ cs "?tag=" ++ t
      | none => url

/-! ### Classifier regexes used by the pipelines -/

/-- `anyAmazonDomainRegex` of `api/index.js`:
`/amazon\.(com|co\.uk|de|fr|es|it|ca|com\.au|co\.jp|cn|in)/i` tested
against the whole string (a bare substring test, no `/` required). -/
def anyAmazonDomain (l : List Char) : Bool :=
  tlds.any (fun t => containsCI (cs "amazon." ++ t) l)

/-- The shortener allow-list regex of `part_000`:
`/(amzn\.to|a\.co|amzn-to\.co|amazon\.in\/gp\/product)\//i`. -/
def shortPats : List (List Char) :=
  [cs "amzn.to/", cs "a.co/", cs "amzn-to.co/", cs "amazon.in/gp/product/"]

/-- `amazonShortLinkRegex.test` / the guard inside
`resolveShortAmazonLink`. -/
def isShortAmazonLink (l : List Char) : Bool :=
  shortPats.any (fun p => containsCI p l)

/-- The URL extraction of both files: `text.match(/(https?:\/\/[^\s]+)/)`
— the leftmost position at which `http://` or `https://` starts
(case-sensitive), extended greedily over non-whitespace. -/
def isHttpAt (l : List Char) : Bool :=
  listStartsWith (cs "http://") l || listStartsWith (cs "https://") l

/-- Leftmost `https?:\/\/[^\s]+` token of the text, or `none`. -/
def findUrl : List Char → Option (List Char)
  | [] => none
  | c :: rest =>
    if isHttpAt (c :: rest) then
      some ((c :: rest).takeWhile (fun ch => !isSpaceC ch))
    else findUrl rest

/-! ### Redirect resolver

Both files issue `axios.get(url, { maxRedirects: 10 })` and return
`response.request.res.responseUrl` on success, `null` on any error.
The HTTP transport is modelled as a function from URL to outcome; the
follower consumes one unit of redirect budget per hop, fails when a
redirect arrives with no budget left (the follow-redirects
`maxRedirects` error), on a network error, and on a terminal status
outside axios's default success range `200 <= s < 300`. -/

/-- One transport response: a redirect with a location, a terminal
status code, or a network error. -/
inductive FetchResult where
  | redirect (loc : List Char)
  | status (code : Nat)
  | netError
deriving DecidableEq

/-- Follow redirects with the given budget. -/
def followRedirects (T : List Char → FetchResult) :
    Nat → List Char → Option (List Char)
  | 0, url =>
    match T url with
    | .status c => if 200 ≤ c ∧ c < 300 then some url else none
    | _ => none
  | n + 1, url =>
    match T url with
    | .status c => if 200 ≤ c ∧ c < 300 then some url else none
    | .netError => none
    | .redirect loc => followRedirects T n loc

/-- `resolveUrl` of `api/index.js` (and the axios call inside
`resolveShortAmazonLink`): the ten-hop cap. -/
def resolveUrl (T : List Char → FetchResult) (url : List Char) :
    Option (List Char) :=
  followRedirects T 10 url

/-- `resolveShortAmazonLink` of `part_000`: re-checks the shortener
allow-list, then performs the transport call (modelled by the ambient
`resolve` function, `resolveUrl T` in deployment). -/
def resolveShortAmazonLink (resolve : List Char → Option (List Char))
    (url : List Char) : Option (List Char) :=
  if isShortAmazonLink url then resolve url else none

/-- `u` reaches `w` after exactly `n` redirect hops under transport
`T`. -/
inductive RedirChain (T : List Char → FetchResult) :
    List Char → Nat → List Char → Prop where
  | zero (u : List Char) : RedirChain T u 0 u
  | succ {u v w : List Char} {n : Nat} :
      T u = .redirect v → RedirChain T v n w → RedirChain T u (n + 1) w

/-- Terminal success (axios default `validateStatus`). -/
def SuccessAt (T : List Char → FetchResult) (w : List Char) : Prop :=
  ∃ c, T w = .status c ∧ 200 ≤ c ∧ c < 300

/-! ### Observable replies and the two pipelines

Each constructor stands for one `bot.sendMessage` call site; the
mapping constructor → source message text is given in the doc comments.
-/

/-- One outbound reply.  Source texts:
* `settagPrompt`  — "Please send me your Amazon Associate Tag now. …" (both files)
* `tagSaved t` / `tagSavedBot t` — "Thank you! Your Amazon Associate Tag has been set to: `t`. …"
* `invalidTagApi` — "Please provide a valid (non-empty) Amazon Associate Tag. Example: `yourstore-20`."
* `invalidTagBot` — "That does not appear to be a valid Amazon Associate Tag format. …"
* `welcomeBack t` — "Welcome back! … Your current Amazon Associate Tag is: `t`. …"
* `welcomeNew` — "Hello! Welcome … please send me your Amazon Associate Tag by using the /settag command."
* `unknownCommand` / `unknownCommandBot` — "Sorry, I don't recognize that command. Please use /start or /settag."
* `noUrlApi` — "That doesn't look like a valid URL. Please send a full Amazon URL or a shortened one."
* `resolving` — "Detecting shortened link... Please wait while I resolve it for you."
* `resolvingBot` — "Detecting short Amazon link... Please wait while I convert it for you."
* `resolveFailedApi` — "Sorry, I could not resolve the provided link. …"
* `resolveFailedBot` — "Sorry, I could not resolve the short Amazon link. …"
* `affiliate l` / `affiliateBot l` — "Here's your affiliate link:\n\nl"
* `convertFailedApi` — "The link was resolved, but I could not convert it to an affiliate link. Please ensure it's a valid Amazon URL."
* `convertFailedBot` — "Could not convert the link. Please ensure it's a valid Amazon product page URL (e.g., contains /dp/ or /gp/product/ and an ASIN)."
* `notAmazonApi` — "That doesn't look like a valid Amazon product link. Please send a full Amazon URL (e.g., `amazon.com/dp/B0xxxxxxx`) or a shortened one (like `amzn.to/xxxx`, `tinyurl.com/xxxx`, etc.)."
* `notAmazonBot` — "That doesn't look like a valid Amazon product link. Please send a full Amazon URL (e.g., `amazon.com/dp/B0xxxxxxx`) or a short one (`amzn.to/xxxx`)." (this identical text is sent both when no URL is found and when the link is not an Amazon link)
-/
inductive Reply where
  | settagPrompt
  | tagSaved (t : List Char)
  | invalidTagApi
  | welcomeBack (t : List Char)
  | welcomeNew
  | unknownCommand
  | noUrlApi
  | resolving
  | resolveFailedApi
  | affiliate (link : List Char)
  | convertFailedApi
  | notAmazonApi
  | tagSavedBot (t : List Char)
  | invalidTagBot
  | unknownCommandBot
  | notAmazonBot
  | resolvingBot
  | resolveFailedBot
  | affiliateBot (link : List Char)
  | convertFailedBot
deriving DecidableEq

/-- Whether the reply's source text (quoted on `Reply`) tells the user
about registering / providing an Amazon Associate Tag.  True exactly
for the messages that mention the Associate Tag or the `/settag`
command; in particular `convertFailedBot` ("Could not convert the link.
Please ensure it's a valid Amazon product page URL …") says nothing
about tags. -/
def mentionsTagSetup : Reply → Bool
  | .settagPrompt => true
  | .tagSaved _ => true
  | .invalidTagApi => true
  | .welcomeBack _ => true
  | .welcomeNew => true
  | .unknownCommand => true
  | .unknownCommandBot => true
  | .tagSavedBot _ => true
  | .invalidTagBot => true
  | _ => false

/-- Result of one webhook invocation: replies sent, and the tag store
entry for the sender afterwards. -/
structure ApiOut where
  replies : List Reply
  tagAfter : Option (List Char)
deriving DecidableEq

/-- Steps 4–5 of the webhook handler: convert `finalUrl`, reply with
the affiliate link if conversion changed the URL, otherwise with the
could-not-convert message. -/
def apiConvertPhase (tag0 : Option (List Char)) (pre : List Reply)
    (finalUrl : List Char) : List Reply :=
  let link := convertToAffiliateLink_api finalUrl tag0
  if link == finalUrl then pre ++ [.convertFailedApi]
  else pre ++ [.affiliate link]

/-- The `app.post("/")` handler of `api/index.js` for one text message
from a user whose stored tag is `tag0`, with `resolve` the axios
transport (`resolveUrl T` in deployment).  Branch order follows the
source: `/settag` first; then the tag-capture branch for tagless users
on non-command text; then commands; then extraction, classification by
`anyAmazonDomainRegex`, resolution of anything non-Amazon, and
conversion. -/
def handleApi (tag0 : Option (List Char))
    (resolve : List Char → Option (List Char)) (text : List Char) :
    ApiOut :=
  if text == cs "/settag" then ⟨[.settagPrompt], tag0⟩
  else if tag0.isNone && !listStartsWith (cs "/") text then
    let pt := trimS text
    if !pt.isEmpty && isValidAmazonTag pt then ⟨[.tagSaved pt], some pt⟩
    else ⟨[.invalidTagApi], tag0⟩
  else if listStartsWith (cs "/") text then
    if text == cs "/start" then
      match tag0 with
      | some t => ⟨[.welcomeBack t], tag0⟩
      | none => ⟨[.welcomeNew], tag0⟩
    else ⟨[.unknownCommand], tag0⟩
  else
    match findUrl text with
    | none => ⟨[.noUrlApi], tag0⟩
    | some url =>
      if anyAmazonDomain url then ⟨apiConvertPhase tag0 [] url, tag0⟩
      else
        match resolve url with
        | none => ⟨[.resolving, .resolveFailedApi], tag0⟩
        | some r =>
          if anyAmazonDomain r then
            ⟨apiConvertPhase tag0 [.resolving] r, tag0⟩
          else ⟨[.resolving, .notAmazonApi], tag0⟩

/-- Result of one polling-bot message event: replies sent, the
`usersAwaitingTag` flag and the tag store entry afterwards. -/
structure BotOut where
  replies : List Reply
  awaitingAfter : Bool
  tagAfter : Option (List Char)
deriving DecidableEq

/-- The bot's conversion step: convert, reply affiliate link if the
URL changed, otherwise could-not-convert. -/
def botConvertPhase (tag0 : Option (List Char)) (pre : List Reply)
    (url : List Char) : List Reply :=
  let link := convertToAffiliateLink_bot url tag0
  if link == url then pre ++ [.convertFailedBot]
  else pre ++ [.affiliateBot link]

/-- The `bot.on("message")` handler of `part_000` for one text message:
tag capture when `usersAwaitingTag` is set (invalid input keeps the
flag set); commands rejected; then extraction, the shortener
allow-list check gating resolution, re-classification of the resolved
URL by the long-link regex, and conversion. -/
def handleBot (awaiting : Bool) (tag0 : Option (List Char))
    (resolve : List Char → Option (List Char)) (text : List Char) :
    BotOut :=
  if awaiting then
    let pt := trimS text
    if !pt.isEmpty && isValidAmazonTag pt then
      ⟨[.tagSavedBot pt], false, some pt⟩
    else ⟨[.invalidTagBot], true, tag0⟩
  else if listStartsWith (cs "/") text then
    ⟨[.unknownCommandBot], awaiting, tag0⟩
  else
    match findUrl text with
    | none => ⟨[.notAmazonBot], awaiting, tag0⟩
    | some url =>
      if isShortAmazonLink url then
        match resolveShortAmazonLink resolve url with
        | none => ⟨[.resolvingBot, .resolveFailedBot], awaiting, tag0⟩
        | some r =>
          if (amazonLongMatch r).isSome then
            ⟨botConvertPhase tag0 [.resolvingBot] r, awaiting, tag0⟩
          else ⟨[.resolvingBot, .notAmazonBot], awaiting, tag0⟩
      else
        if (amazonLongMatch url).isSome then
          ⟨botConvertPhase tag0 [] url, awaiting, tag0⟩
        else ⟨[.notAmazonBot], awaiting, tag0⟩

/-! ### Claim-side specification predicates -/

/-- The tag-validator contract as the specification phrases it: the
hyphen-split of the whole string consists of one or more non-empty
alphanumeric segments followed by a final segment of one to three
digits.  Stated from the spec's words, to be compared with
`isValidAmazonTag`. -/
def ValidTagSpec (l : List Char) : Prop :=
  ∃ init dseg, splitOnChar '-' l = init ++ [dseg] ∧ init ≠ [] ∧
    (∀ s ∈ init, s ≠ [] ∧ ∀ c ∈ s, isAlnumC c = true) ∧
    dseg ≠ [] ∧ dseg.length ≤ 3 ∧ (∀ c ∈ dseg, isDigitC c = true)

/-- Number of `tag` query parameters a URL string carries (under the
URL model used by the webhook rewriter); claim-side helper for the
idempotence claim. -/
def tagParamCount (url : List Char) : Nat :=
  match parseUrl url with
  | none => 0
  | some u => (u.query.filter (fun p => p.1 == cs "tag")).length

/-- Stub transport for the hop-cap test: every URL of length below 11
redirects to a URL one character longer, length 11 is a 200.  Starting
from the empty URL the chain needs 11 redirects; starting from a
one-character URL it needs 10. -/
def capT : List Char → FetchResult := fun u =>
  if u.length < 11 then .redirect ('x' :: u) else .status 200

/-- Well-formedness invariant of parsed URLs: what `parseUrl` outputs
and what `serializeUrl` needs in order to round-trip. -/
def WfUrl (u : UrlObj) : Prop :=
  (u.scheme = cs "http" ∨ u.scheme = cs "https") ∧
  u.host ≠ [] ∧
  (∀ c ∈ u.host, (c == '/' || c == '?') = false) ∧
  (∃ p', u.path = '/' :: p') ∧
  (∀ c ∈ u.path, (c == '?') = false) ∧
  (∀ kv ∈ u.query, '&' ∉ kv.1 ∧ '=' ∉ kv.1 ∧ '&' ∉ kv.2)

/-! ## Lemmas: list utilities -/

theorem listStartsWith_self_append (p r : List Char) :
    listStartsWith p (p ++ r) = true := by
  induction p with
  | nil => rfl
  | cons c ps ih => simp [listStartsWith, ih]

theorem listStartsWith_iff_append (p l : List Char) :
    listStartsWith p l = true ↔ ∃ r, l = p ++ r := by
  induction p generalizing l with
  | nil => simp [listStartsWith]
  | cons c ps ih =>
    cases l with
    | nil => simp [listStartsWith]
    | cons d ds =>
      simp only [listStartsWith, Bool.and_eq_true, beq_iff_eq, ih,
        List.cons_append, List.cons.injEq]
      constructor
      · rintro ⟨rfl, r, rfl⟩; exact ⟨r, rfl, rfl⟩
      · rintro ⟨r, rfl, rfl⟩; exact ⟨rfl, r, rfl⟩

theorem mem_dropWhile_of_mem {p : Char → Bool} {c : Char} {l : List Char}
    (hc : c ∈ l) (hp : p c = false) : c ∈ l.dropWhile p := by
  induction l with
  | nil => cases hc
  | cons a rest ih =>
    rcases List.mem_cons.mp hc with rfl | hmem
    · rw [List.dropWhile_cons, hp]; simp
    · rw [List.dropWhile_cons]
      by_cases ha : p a
      · simp [ha, ih hmem]
      · simp [ha, List.mem_cons, Or.inr hmem]

theorem mem_trimS_of_mem {c : Char} {l : List Char}
    (hc : c ∈ l) (hp : isSpaceC c = false) : c ∈ trimS l := by
  unfold trimS
  have h1 : c ∈ l.dropWhile isSpaceC := mem_dropWhile_of_mem hc hp
  have h2 : c ∈ (l.dropWhile isSpaceC).reverse := List.mem_reverse.mpr h1
  exact List.mem_reverse.mpr (mem_dropWhile_of_mem h2 hp)

theorem splitOnChar_ne_nil (sep : Char) (l : List Char) :
    splitOnChar sep l ≠ [] := by
  induction l with
  | nil => simp [splitOnChar]
  | cons c rest ih =>
    simp only [splitOnChar]
    rcases h : splitOnChar sep rest with _ | ⟨s, ss⟩
    · exact absurd h ih
    · by_cases hc : c == sep <;> simp [hc]

theorem exists_mem_splitOnChar {sep c : Char} {l : List Char}
    (hc : c ∈ l) (hne : c ≠ sep) :
    ∃ s ∈ splitOnChar sep l, c ∈ s := by
  induction l with
  | nil => cases hc
  | cons a rest ih =>
    simp only [splitOnChar]
    rcases h : splitOnChar sep rest with _ | ⟨s, ss⟩
    · exact absurd h (splitOnChar_ne_nil sep rest)
    · rcases List.mem_cons.mp hc with rfl | hmem
      · have ha : (c == sep) = false := by simp [hne]
        simp [ha]
      · rcases ih hmem with ⟨t, ht, hct⟩
        rw [h] at ht
        by_cases hsep : a == sep
        · simp only [hsep, if_true]
          exact ⟨t, List.mem_cons_of_mem _ ht, hct⟩
        · simp only [hsep, if_false]
          rcases List.mem_cons.mp ht with rfl | ht'
          · exact ⟨a :: t, List.mem_cons_self _ _, List.mem_cons_of_mem _ hct⟩
          · exact ⟨t, List.mem_cons_of_mem _ ht', hct⟩

theorem not_sep_mem_splitOnChar {sep : Char} {l : List Char} :
    ∀ s ∈ splitOnChar sep l, sep ∉ s := by
  induction l with
  | nil => simp [splitOnChar]
  | cons a rest ih =>
    intro s hs
    simp only [splitOnChar] at hs
    rcases h : splitOnChar sep rest with _ | ⟨t, ts⟩
    · exact absurd h (splitOnChar_ne_nil sep rest)
    · rw [h] at hs
      by_cases hsep : a == sep
      · simp only [hsep, if_true] at hs
        rcases List.mem_cons.mp hs with rfl | hs'
        · simp
        · exact ih s (h ▸ hs')
      · simp only [hsep, if_false] at hs
        rcases List.mem_cons.mp hs with rfl | hs'
        · intro hmem
          rcases List.mem_cons.mp hmem with rfl | hmem'
          · simp at hsep
          · exact ih t (h ▸ List.mem_cons_self t ts) hmem'
        · exact ih s (h ▸ List.mem_cons_of_mem t hs')

theorem splitOnChar_no_sep {sep : Char} {a : List Char} (h : sep ∉ a) :
    splitOnChar sep a = [a] := by
  induction a with
  | nil => rfl
  | cons c rest ih =>
    simp only [List.mem_cons, not_or] at h
    have hc : (c == sep) = false := beq_eq_false_iff_ne.mpr (Ne.symm h.1)
    have hrest : sep ∉ rest := h.2
    simp only [splitOnChar, ih hrest, hc]
    simp

theorem splitOnChar_append_sep {sep : Char} {a r : List Char}
    (h : sep ∉ a) :
    splitOnChar sep (a ++ sep :: r) = a :: splitOnChar sep r := by
  induction a with
  | nil => simp [splitOnChar]
  | cons c rest ih =>
    simp only [List.mem_cons, not_or] at h
    have hc : (c == sep) = false := beq_eq_false_iff_ne.mpr (Ne.symm h.1)
    have hrest : sep ∉ rest := h.2
    have hih := ih hrest
    simp only [List.cons_append, splitOnChar, List.append_eq, hih, hc]
    simp

theorem breakAt_no_sep {sep : Char} {p : List Char} (h : sep ∉ p) :
    breakAt sep p = (p, none) := by
  induction p with
  | nil => rfl
  | cons c rest ih =>
    simp only [List.mem_cons, not_or] at h
    have hc : (c == sep) = false := beq_eq_false_iff_ne.mpr (Ne.symm h.1)
    simp [breakAt, hc, ih h.2]

theorem breakAt_append_sep {sep : Char} {k v : List Char} (h : sep ∉ k) :
    breakAt sep (k ++ sep :: v) = (k, some v) := by
  induction k with
  | nil => simp [breakAt]
  | cons c rest ih =>
    simp only [List.mem_cons, not_or] at h
    have hc : (c == sep) = false := beq_eq_false_iff_ne.mpr (Ne.symm h.1)
    simp [breakAt, hc, ih h.2]

theorem isEmpty_false_iff (l : List Char) : l.isEmpty = false ↔ l ≠ [] := by
  cases l <;> simp

theorem breakAt_fst_no_sep (sep : Char) (l : List Char) :
    sep ∉ (breakAt sep l).1 := by
  induction l with
  | nil => simp [breakAt]
  | cons c rest ih =>
    by_cases hc : c == sep
    · simp [breakAt, hc]
    · have hc' : (c == sep) = false := by simpa using hc
      simp only [breakAt, hc', Bool.false_eq_true, if_false, List.mem_cons,
        not_or]
      exact ⟨fun h => hc (beq_iff_eq.mpr h.symm), ih⟩

theorem breakAt_snd_eq {sep : Char} {l b : List Char}
    (h : (breakAt sep l).2 = some b) :
    l = (breakAt sep l).1 ++ sep :: b := by
  induction l generalizing b with
  | nil => simp [breakAt] at h
  | cons c rest ih =>
    simp only [breakAt] at h ⊢
    by_cases hc : c == sep
    · simp only [hc, if_true] at h ⊢
      obtain rfl : rest = b := by simpa using h
      simp [beq_iff_eq.mp hc]
    · simp only [hc, if_false] at h ⊢
      exact congrArg (c :: ·) (ih h)

theorem spanNot_fst_all (stop : Char → Bool) (l : List Char) :
    ∀ c ∈ (spanNot stop l).1, stop c = false := by
  induction l with
  | nil => simp [spanNot]
  | cons a rest ih =>
    simp only [spanNot]
    by_cases ha : stop a
    · simp [ha]
    · simp only [Bool.not_eq_true] at ha
      simp only [ha, Bool.false_eq_true, if_false, List.mem_cons]
      rintro c (rfl | hc)
      · exact ha
      · exact ih c hc

theorem spanNot_snd_head (stop : Char → Bool) (l : List Char) :
    (spanNot stop l).2 = [] ∨
      ∃ h t, (spanNot stop l).2 = h :: t ∧ stop h = true := by
  induction l with
  | nil => simp [spanNot]
  | cons a rest ih =>
    simp only [spanNot]
    by_cases ha : stop a
    · exact Or.inr ⟨a, rest, by simp [ha], ha⟩
    · simp only [Bool.not_eq_true] at ha
      simpa [ha] using ih

theorem spanNot_append_eq (stop : Char → Bool) (l : List Char) :
    (spanNot stop l).1 ++ (spanNot stop l).2 = l := by
  induction l with
  | nil => simp [spanNot]
  | cons a rest ih =>
    simp only [spanNot]
    by_cases ha : stop a
    · simp [ha]
    · simp only [Bool.not_eq_true] at ha
      simp [ha, ih]

theorem spanNot_of_append {stop : Char → Bool} {a : List Char}
    {b : Char} {t : List Char}
    (ha : ∀ c ∈ a, stop c = false) (hb : stop b = true) :
    spanNot stop (a ++ b :: t) = (a, b :: t) := by
  induction a with
  | nil => simp [spanNot, hb]
  | cons c rest ih =>
    have hc : stop c = false := ha c (List.mem_cons_self c rest)
    have hrest : ∀ x ∈ rest, stop x = false :=
      fun x hx => ha x (List.mem_cons_of_mem _ hx)
    simp [spanNot, hc, ih hrest]

theorem spanNot_all_false {stop : Char → Bool} {l : List Char}
    (h : ∀ c ∈ l, stop c = false) : spanNot stop l = (l, []) := by
  induction l with
  | nil => rfl
  | cons c rest ih =>
    have hc : stop c = false := h c (List.mem_cons_self c rest)
    have hrest : ∀ x ∈ rest, stop x = false :=
      fun x hx => h x (List.mem_cons_of_mem _ hx)
    simp [spanNot, hc, ih hrest]

/-! ## Lemmas: tag validator -/

theorem isAlnumC_of_isDigitC {c : Char} (h : isDigitC c = true) :
    isAlnumC c = true := by
  unfold isDigitC at h
  unfold isAlnumC
  simp only [Bool.or_eq_true]
  exact Or.inr h

theorem tagSegsAux_all_alnum {segs : List (List Char)}
    (h : tagSegsAux segs = true) :
    ∀ s ∈ segs, ∀ c ∈ s, isAlnumC c = true := by
  induction segs with
  | nil => simp
  | cons a rest ih =>
    cases rest with
    | nil =>
      simp only [tagSegsAux, okNumSeg, Bool.and_eq_true, List.all_eq_true] at h
      intro s hs c hc
      rcases List.mem_cons.mp hs with rfl | hs'
      · exact isAlnumC_of_isDigitC (h.2 c hc)
      · cases hs'
    | cons b bs =>
      simp only [tagSegsAux, Bool.and_eq_true] at h
      intro s hs c hc
      rcases List.mem_cons.mp hs with rfl | hs'
      · have := h.1
        simp only [okSegment, Bool.and_eq_true, List.all_eq_true] at this
        exact this.2 c hc
      · exact ih h.2 s hs' c hc

theorem tagSegs_all_alnum {segs : List (List Char)}
    (h : tagSegs segs = true) :
    ∀ s ∈ segs, ∀ c ∈ s, isAlnumC c = true := by
  match segs, h with
  | s :: s' :: rest, h =>
    simp only [tagSegs, Bool.and_eq_true] at h
    intro x hx c hc
    rcases List.mem_cons.mp hx with rfl | hx'
    · have := h.1
      simp only [okSegment, Bool.and_eq_true, List.all_eq_true] at this
      exact this.2 c hc
    · exact tagSegsAux_all_alnum h.2 x hx' c hc

/-- A string containing any character that is neither alphanumeric nor
a hyphen is rejected by the tag validator (used to show URL-shaped
strings are never captured as tags). -/
theorem isValidAmazonTag_false_of_badChar {c : Char} {l : List Char}
    (hc : c ∈ l) (halnum : isAlnumC c = false) (hdash : c ≠ '-') :
    isValidAmazonTag l = false := by
  by_contra h
  rw [Bool.not_eq_false] at h
  rcases exists_mem_splitOnChar hc hdash with ⟨s, hs, hcs⟩
  have := tagSegs_all_alnum h s hs c hcs
  rw [this] at halnum
  cases halnum

theorem tagSegsAux_iff (segs : List (List Char)) :
    tagSegsAux segs = true ↔
      ∃ init dseg, segs = init ++ [dseg] ∧
        (∀ s ∈ init, okSegment s = true) ∧ okNumSeg dseg = true := by
  induction segs with
  | nil =>
    simp only [tagSegsAux]
    constructor
    · intro h; cases h
    · rintro ⟨init, dseg, h, -, -⟩
      exact absurd h.symm (List.append_ne_nil_of_right_ne_nil init (by simp))
  | cons a rest ih =>
    cases rest with
    | nil =>
      simp only [tagSegsAux]
      constructor
      · intro h; exact ⟨[], a, rfl, by simp, h⟩
      · rintro ⟨init, dseg, h, hinit, hd⟩
        rcases init with _ | ⟨i, is⟩
        · simp only [List.nil_append, List.cons.injEq] at h
          rw [h.1]; exact hd
        · simp only [List.cons_append, List.cons.injEq] at h
          exact absurd h.2.symm
            (List.append_ne_nil_of_right_ne_nil is (by simp))
    | cons b bs =>
      rw [show tagSegsAux (a :: b :: bs) = (okSegment a && tagSegsAux (b :: bs)) from rfl]
      simp only [Bool.and_eq_true, ih]
      constructor
      · rintro ⟨ha, init, dseg, heq, hinit, hd⟩
        refine ⟨a :: init, dseg, by rw [List.cons_append, heq], ?_, hd⟩
        intro s hs
        rcases List.mem_cons.mp hs with rfl | hs'
        · exact ha
        · exact hinit s hs'
      · rintro ⟨init, dseg, heq, hinit, hd⟩
        rcases init with _ | ⟨i, is⟩
        · simp only [List.nil_append, List.cons.injEq] at heq
          exact absurd heq.2.symm (by simp)
        · simp only [List.cons_append, List.cons.injEq] at heq
          refine ⟨heq.1 ▸ hinit i (List.mem_cons_self i is), is, dseg, heq.2, ?_, hd⟩
          intro s hs
          exact hinit s (List.mem_cons_of_mem _ hs)

theorem tagSegs_iff (segs : List (List Char)) :
    tagSegs segs = true ↔
      ∃ init dseg, segs = init ++ [dseg] ∧ init ≠ [] ∧
        (∀ s ∈ init, okSegment s = true) ∧ okNumSeg dseg = true := by
  cases segs with
  | nil =>
    simp only [tagSegs]
    constructor
    · intro h; cases h
    · rintro ⟨init, dseg, h, -, -, -⟩
      exact absurd h.symm (List.append_ne_nil_of_right_ne_nil init (by simp))
  | cons a rest =>
    cases rest with
    | nil =>
      simp only [tagSegs]
      constructor
      · intro h; cases h
      · rintro ⟨init, dseg, heq, hne, -, -⟩
        rcases init with _ | ⟨i, is⟩
        · exact absurd rfl hne
        · simp only [List.cons_append, List.cons.injEq] at heq
          exact absurd heq.2.symm
            (List.append_ne_nil_of_right_ne_nil is (by simp))
    | cons b bs =>
      rw [show tagSegs (a :: b :: bs) = (okSegment a && tagSegsAux (b :: bs)) from rfl]
      simp only [Bool.and_eq_true, tagSegsAux_iff]
      constructor
      · rintro ⟨ha, init, dseg, heq, hinit, hd⟩
        refine ⟨a :: init, dseg, by rw [List.cons_append, heq], by simp, ?_, hd⟩
        intro s hs
        rcases List.mem_cons.mp hs with rfl | hs'
        · exact ha
        · exact hinit s hs'
      · rintro ⟨init, dseg, heq, hne, hinit, hd⟩
        rcases init with _ | ⟨i, is⟩
        · exact absurd rfl hne
        · simp only [List.cons_append, List.cons.injEq] at heq
          refine ⟨heq.1 ▸ hinit i (List.mem_cons_self i is), is, dseg, heq.2, ?_, hd⟩
          intro s hs
          exact hinit s (List.mem_cons_of_mem _ hs)

theorem okSegment_iff (s : List Char) :
    okSegment s = true ↔ s ≠ [] ∧ ∀ c ∈ s, isAlnumC c = true := by
  simp only [okSegment, Bool.and_eq_true, Bool.not_eq_true',
    List.all_eq_true, isEmpty_false_iff]

theorem okNumSeg_iff (s : List Char) :
    okNumSeg s = true ↔
      s ≠ [] ∧ s.length ≤ 3 ∧ ∀ c ∈ s, isDigitC c = true := by
  simp only [okNumSeg, Bool.and_eq_true, Bool.not_eq_true',
    List.all_eq_true, isEmpty_false_iff, decide_eq_true_eq, and_assoc]

theorem isValidAmazonTag_iff_spec (l : List Char) :
    isValidAmazonTag l = true ↔ ValidTagSpec l := by
  unfold isValidAmazonTag ValidTagSpec
  rw [tagSegs_iff]
  constructor
  · rintro ⟨init, dseg, heq, hne, hinit, hd⟩
    rcases (okNumSeg_iff dseg).mp hd with ⟨h1, h2, h3⟩
    exact ⟨init, dseg, heq, hne,
      fun s hs => (okSegment_iff s).mp (hinit s hs), h1, h2, h3⟩
  · rintro ⟨init, dseg, heq, hne, hinit, h1, h2, h3⟩
    exact ⟨init, dseg, heq, hne,
      fun s hs => (okSegment_iff s).mpr (hinit s hs),
      (okNumSeg_iff dseg).mpr ⟨h1, h2, h3⟩⟩

/-! ## Lemmas: URL parsing and serialisation -/

theorem breakAt_none_eq {sep : Char} {l : List Char}
    (h : (breakAt sep l).2 = none) : (breakAt sep l).1 = l := by
  induction l with
  | nil => rfl
  | cons c rest ih =>
    by_cases hc : c == sep
    · simp [breakAt, hc] at h
    · have hc' : (c == sep) = false := by simpa using hc
      simp only [breakAt, hc', Bool.false_eq_true, if_false] at h ⊢
      exact congrArg (c :: ·) (ih h)

theorem spanNot_cons_false {stop : Char → Bool} {c : Char}
    {m : List Char} (hc : stop c = false) :
    spanNot stop (c :: m) = (c :: (spanNot stop m).1, (spanNot stop m).2) := by
  simp [spanNot, hc]

theorem schemeSplit_spec {l sch rest : List Char}
    (h : schemeSplit l = some (sch, rest)) :
    (sch = cs "http" ∨ sch = cs "https") ∧
      l = sch ++ ':' :: '/' :: '/' :: rest := by
  unfold schemeSplit at h
  by_cases h1 : listStartsWith (cs "http://") l
  · rw [if_pos h1] at h
    obtain ⟨rfl, rfl⟩ : cs "http" = sch ∧ l.drop 7 = rest := by
      simpa using h
    rcases (listStartsWith_iff_append _ _).mp h1 with ⟨r, rfl⟩
    refine ⟨Or.inl rfl, ?_⟩
    simp [cs]
  · rw [if_neg h1] at h
    by_cases h2 : listStartsWith (cs "https://") l
    · rw [if_pos h2] at h
      obtain ⟨rfl, rfl⟩ : cs "https" = sch ∧ l.drop 8 = rest := by
        simpa using h
      rcases (listStartsWith_iff_append _ _).mp h2 with ⟨r, rfl⟩
      refine ⟨Or.inr rfl, ?_⟩
      simp [cs]
    · rw [if_neg h2] at h
      cases h

theorem schemeSplit_roundtrip {sch : List Char}
    (h : sch = cs "http" ∨ sch = cs "https") (r : List Char) :
    schemeSplit (sch ++ ':' :: '/' :: '/' :: r) = some (sch, r) := by
  rcases h with rfl | rfl <;> rfl

theorem parseQuery_wf (qs : List Char) :
    ∀ kv ∈ parseQuery qs, '&' ∉ kv.1 ∧ '=' ∉ kv.1 ∧ '&' ∉ kv.2 := by
  intro kv hkv
  unfold parseQuery at hkv
  rcases List.mem_filterMap.mp hkv with ⟨piece, hpiece, hf⟩
  have hamp : '&' ∉ piece := not_sep_mem_splitOnChar piece hpiece
  by_cases he : piece.isEmpty
  · simp [he] at hf
  · simp only [he, Bool.false_eq_true, if_false, Option.some.injEq] at hf
    subst hf
    have hkfst : '=' ∉ (breakAt '=' piece).1 := breakAt_fst_no_sep '=' piece
    rcases hbb : breakAt '=' piece with ⟨k, o⟩
    rw [hbb] at hkfst
    cases o with
    | none =>
      have h1 : k = piece := by
        have h0 : (breakAt '=' piece).2 = none := by rw [hbb]
        have := breakAt_none_eq h0
        rwa [hbb] at this
      have hpp : parseParam piece = (k, []) := by
        unfold parseParam; rw [hbb]
      rw [hpp]
      exact ⟨fun hm => hamp (h1 ▸ hm), hkfst, by simp⟩
    | some v =>
      have h1 : piece = k ++ '=' :: v := by
        have h0 : (breakAt '=' piece).2 = some v := by rw [hbb]
        have := breakAt_snd_eq h0
        rwa [hbb] at this
      have hpp : parseParam piece = (k, v) := by
        unfold parseParam; rw [hbb]
      rw [hpp]
      refine ⟨fun hm => hamp (h1 ▸ List.mem_append_left _ hm), hkfst,
        fun hm => hamp (h1 ▸ List.mem_append_right _ (List.mem_cons_of_mem _ hm))⟩

theorem append_cons_isEmpty (k : List Char) (c : Char) (v : List Char) :
    (k ++ c :: v).isEmpty = false := by
  cases k <;> rfl

theorem parseQuery_queryStr :
    ∀ {q : List (List Char × List Char)},
      (∀ kv ∈ q, '&' ∉ kv.1 ∧ '=' ∉ kv.1 ∧ '&' ∉ kv.2) → q ≠ [] →
      parseQuery (queryStr q) = q := by
  intro q
  induction q with
  | nil => intro _ h; exact absurd rfl h
  | cons kv rest ih =>
    intro hwf _
    obtain ⟨k, v⟩ := kv
    have hk : '&' ∉ k := (hwf (k, v) (List.mem_cons_self _ _)).1
    have hke : '=' ∉ k := (hwf (k, v) (List.mem_cons_self _ _)).2.1
    have hv : '&' ∉ v := (hwf (k, v) (List.mem_cons_self _ _)).2.2
    have hpiece : '&' ∉ k ++ '=' :: v := by
      intro hmem
      rcases List.mem_append.mp hmem with hm | hm
      · exact hk hm
      · rcases List.mem_cons.mp hm with heq | hm'
        · cases heq
        · exact hv hm'
    have hpp : parseParam (k ++ '=' :: v) = (k, v) := by
      unfold parseParam; rw [breakAt_append_sep hke]
    cases rest with
    | nil =>
      show parseQuery (queryStr [(k, v)]) = [(k, v)]
      have hq1 : queryStr [(k, v)] = k ++ '=' :: v := rfl
      rw [hq1]
      unfold parseQuery
      rw [splitOnChar_no_sep hpiece]
      simp [append_cons_isEmpty, hpp]
    | cons kv2 rest2 =>
      show parseQuery (queryStr ((k, v) :: kv2 :: rest2)) =
        (k, v) :: kv2 :: rest2
      have hq2 : queryStr ((k, v) :: kv2 :: rest2) =
          (k ++ '=' :: v) ++ '&' :: queryStr (kv2 :: rest2) := rfl
      rw [hq2]
      have hrest : parseQuery (queryStr (kv2 :: rest2)) = kv2 :: rest2 :=
        ih (fun x hx => hwf x (List.mem_cons_of_mem _ hx)) (by simp)
      unfold parseQuery at hrest ⊢
      rw [splitOnChar_append_sep hpiece]
      simp [append_cons_isEmpty, hpp]
      simpa using hrest

theorem parseUrl_serializeUrl {u : UrlObj} (hwf : WfUrl u) :
    parseUrl (serializeUrl u) = some u := by
  obtain ⟨hsch, hhost, hhostc, ⟨p', hpath⟩, hpathc, hq⟩ := hwf
  obtain ⟨sch, host, path, query⟩ := u
  simp only at hsch hhost hhostc hpath hpathc hq
  subst hpath
  have hhostE : host.isEmpty = false := (isEmpty_false_iff host).mpr hhost
  cases query with
  | nil =>
    have hser : serializeUrl ⟨sch, host, '/' :: p', []⟩ =
        sch ++ (':' :: '/' :: '/' :: (host ++ ('/' :: p'))) := by
      unfold serializeUrl
      simp
    rw [hser]
    unfold parseUrl
    rw [schemeSplit_roundtrip hsch]
    have hspan : spanNot (fun c => c == '/' || c == '?')
        (host ++ ('/' :: p')) = (host, '/' :: p') :=
      spanNot_of_append hhostc (by rfl)
    simp only [hspan, hhostE, Bool.false_eq_true, if_false]
    have h2 : spanNot (fun ch => ch == '?') ('/' :: p') = ('/' :: p', []) :=
      spanNot_all_false hpathc
    simp only [show (('/' : Char) == '?') = false from rfl,
      Bool.false_eq_true, if_false, h2]
  | cons kv rest =>
    have hser : serializeUrl ⟨sch, host, '/' :: p', kv :: rest⟩ =
        sch ++ (':' :: '/' :: '/' ::
          (host ++ ('/' :: (p' ++ '?' :: queryStr (kv :: rest))))) := by
      unfold serializeUrl
      simp [List.append_assoc]
    rw [hser]
    unfold parseUrl
    rw [schemeSplit_roundtrip hsch]
    have hspan : spanNot (fun c => c == '/' || c == '?')
        (host ++ ('/' :: (p' ++ '?' :: queryStr (kv :: rest)))) =
        (host, '/' :: (p' ++ '?' :: queryStr (kv :: rest))) :=
      spanNot_of_append hhostc (by rfl)
    simp only [hspan, hhostE, Bool.false_eq_true, if_false]
    have h2 : spanNot (fun ch => ch == '?')
        ('/' :: (p' ++ '?' :: queryStr (kv :: rest))) =
        ('/' :: p', '?' :: queryStr (kv :: rest)) := by
      have h3 := @spanNot_of_append (fun ch => ch == '?') ('/' :: p') '?'
        (queryStr (kv :: rest)) hpathc (by rfl)
      simpa using h3
    simp only [show (('/' : Char) == '?') = false from rfl,
      Bool.false_eq_true, if_false, h2]
    rw [parseQuery_queryStr hq (by simp)]

theorem wf_of_parseUrl {l : List Char} {u : UrlObj}
    (h : parseUrl l = some u) : WfUrl u := by
  unfold parseUrl at h
  rcases hss : schemeSplit l with _ | ⟨sch, rest⟩
  · rw [hss] at h; cases h
  · rw [hss] at h
    have hsch := (schemeSplit_spec hss).1
    simp only at h
    have hhostc := spanNot_fst_all (fun c => c == '/' || c == '?') rest
    split at h
    · cases h
    · rename_i he
      have hhost : (spanNot (fun c => c == '/' || c == '?') rest).1 ≠ [] :=
        (isEmpty_false_iff _).mp (by simpa using he)
      have hslashpath : ∀ c ∈ cs "/", (c == '?') = false := by decide
      split at h
      · injection h with h
        subst h
        exact ⟨hsch, hhost, hhostc, ⟨[], rfl⟩, hslashpath,
          by simp [parseQuery]⟩
      · rename_i c rest2 h2
        have hstopc : (c == '/' || c == '?') = true := by
          rcases spanNot_snd_head (fun c => c == '/' || c == '?') rest with
            h3 | ⟨hh, tt, h3, h4⟩
          · rw [h2] at h3; cases h3
          · rw [h2] at h3
            injection h3 with h5 h6
            rwa [← h5] at h4
        split at h
        · injection h with h
          subst h
          exact ⟨hsch, hhost, hhostc, ⟨[], rfl⟩, hslashpath, parseQuery_wf _⟩
        · rename_i hq
          have hq' : (c == '?') = false := by simpa using hq
          have hcslash : c = '/' := by
            have hc2 : (c == '/') = true := by
              rcases Bool.or_eq_true_iff.mp hstopc with h5 | h5
              · exact h5
              · rw [h5] at hq'; cases hq'
            exact beq_iff_eq.mp hc2
          have hpath2 : (spanNot (fun ch => ch == '?') (c :: rest2)).1 =
              '/' :: (spanNot (fun ch => ch == '?') rest2).1 := by
            rw [@spanNot_cons_false (fun ch => ch == '?') c rest2 hq',
              hcslash]
          have hpathc := spanNot_fst_all (fun ch => ch == '?') (c :: rest2)
          split at h
          · injection h with h
            subst h
            exact ⟨hsch, hhost, hhostc, ⟨_, hpath2⟩, hpathc, by simp⟩
          · injection h with h
            subst h
            exact ⟨hsch, hhost, hhostc, ⟨_, hpath2⟩, hpathc,
              parseQuery_wf _⟩

/-- Well-formedness is preserved by the webhook rewriter's query
surgery (given an ampersand-free tag value, which is what
`URLSearchParams` encoding guarantees in the source). -/
theorem wf_stripAff_tag {u : UrlObj} (hwf : WfUrl u) {t : List Char}
    (hamp : '&' ∉ t) :
    WfUrl ⟨u.scheme, u.host, u.path, stripAff u.query ++ [(cs "tag", t)]⟩ := by
  obtain ⟨hsch, hhost, hhostc, hpath, hpathc, hq⟩ := hwf
  refine ⟨hsch, hhost, hhostc, hpath, hpathc, ?_⟩
  intro kv hkv
  rcases List.mem_append.mp hkv with hm | hm
  · exact hq kv (List.mem_of_mem_filter hm)
  · rcases List.mem_cons.mp hm with rfl | hm'
    · have h1 : '&' ∉ cs "tag" := by decide
      have h2 : '=' ∉ cs "tag" := by decide
      exact ⟨h1, h2, hamp⟩
    · cases hm'

/-- The central property of the webhook rewriter on parseable URLs:
scheme, host and path are preserved, the affiliate keys are stripped,
and `tag` is appended with the supplied value. -/
theorem parse_convert_api {url : List Char} {u : UrlObj} {t : List Char}
    (hu : parseUrl url = some u) (ht : t ≠ []) (hamp : '&' ∉ t) :
    parseUrl (convertToAffiliateLink_api url (some t)) =
      some ⟨u.scheme, u.host, u.path, stripAff u.query ++ [(cs "tag", t)]⟩ := by
  have hwf := wf_of_parseUrl hu
  unfold convertToAffiliateLink_api
  simp only [(isEmpty_false_iff t).mpr ht, Bool.false_eq_true, if_false, hu]
  exact parseUrl_serializeUrl (wf_stripAff_tag hwf hamp)

/-! ## Claim C7 -/

/-- C7: `isValidAmazonTag s` returns true exactly when the whole string
`s` is one or more hyphen-joined alphanumeric segments followed by a
final segment that is a 1-to-3-digit number (`ValidTagSpec`); in
particular it accepts "store-20" and "my-cool-store-1" and rejects
"store", "store-abcd", " store-20 " (surrounding spaces) and "-20". -/
theorem C7_isValidTag_spec :
    (∀ l, isValidAmazonTag l = true ↔ ValidTagSpec l) ∧
    isValidAmazonTag (cs "store-20") = true ∧
    isValidAmazonTag (cs "my-cool-store-1") = true ∧
    isValidAmazonTag (cs "store") = false ∧
    isValidAmazonTag (cs "store-abcd") = false ∧
    isValidAmazonTag (cs " store-20 ") = false ∧
    isValidAmazonTag (cs "-20") = false :=
  ⟨isValidAmazonTag_iff_spec, by decide, by decide, by decide, by decide,
    by decide, by decide⟩

/-! ## Claim C8 -/

/-- C8: the rewriter no-op law — with an absent tag, both the webhook
rewriter and the bot rewriter return their input URL completely
unchanged, for every URL. -/
theorem C8_rewrite_noop_absent_tag :
    ∀ url, convertToAffiliateLink_api url none = url ∧
      convertToAffiliateLink_bot url none = url :=
  fun _ => ⟨rfl, rfl⟩

/-! ## Claim C10 -/

/-- C10: tag capture trims surrounding whitespace before validation —
whenever the trimmed message text is a valid tag, the webhook's
tag-capture branch (tagless user) and the bot's awaiting-tag branch
accept the message and store exactly the trimmed text. -/
theorem C10_tag_capture_trims (text : List Char)
    (r rb : List Char → Option (List Char)) (tg0 : Option (List Char))
    (h1 : trimS text ≠ [])
    (h2 : isValidAmazonTag (trimS text) = true) :
    handleApi none r text = ⟨[.tagSaved (trimS text)], some (trimS text)⟩ ∧
    handleBot true tg0 rb text =
      ⟨[.tagSavedBot (trimS text)], false, some (trimS text)⟩ := by
  have hslash : listStartsWith (cs "/") text = false := by
    by_contra hs
    rw [Bool.not_eq_false] at hs
    rcases (listStartsWith_iff_append _ _).mp hs with ⟨rest, rfl⟩
    have hmem : '/' ∈ trimS (cs "/" ++ rest) :=
      mem_trimS_of_mem (by simp [cs]) (by decide)
    have hbad := isValidAmazonTag_false_of_badChar hmem (by decide) (by decide)
    rw [hbad] at h2; cases h2
  have hsettag : (text == cs "/settag") = false := by
    by_contra hq
    rw [Bool.not_eq_false, beq_iff_eq] at hq
    subst hq
    rw [show listStartsWith (cs "/") (cs "/settag") = true from rfl] at hslash
    cases hslash
  have hpt : (trimS text).isEmpty = false := (isEmpty_false_iff _).mpr h1
  constructor
  · unfold handleApi
    simp [hsettag, hslash, hpt, h2]
  · unfold handleBot
    simp [hpt, h2]

/-- Witness for C10: the padded input " store-20 " is rejected by the
raw validator yet accepted and stored trimmed by both handlers. -/
theorem C10_witness :
    trimS (cs " store-20 ") = cs "store-20" ∧
    isValidAmazonTag (cs " store-20 ") = false ∧
    handleApi none (fun _ => none) (cs " store-20 ") =
      ⟨[.tagSaved (cs "store-20")], some (cs "store-20")⟩ ∧
    handleBot true none (fun _ => none) (cs " store-20 ") =
      ⟨[.tagSavedBot (cs "store-20")], false, some (cs "store-20")⟩ := by
  have h := C10_tag_capture_trims (cs " store-20 ") (fun _ => none)
      (fun _ => none) none (by decide) (by decide)
  refine ⟨by decide, by decide, ?_, ?_⟩
  · have h1 := h.1
    rwa [show trimS (cs " store-20 ") = cs "store-20" from by decide] at h1
  · have h2 := h.2
    rwa [show trimS (cs " store-20 ") = cs "store-20" from by decide] at h2

/-! ## Lemmas: URL extraction and the tag-capture interception -/

theorem findUrl_mem_colon {text url : List Char}
    (h : findUrl text = some url) : ':' ∈ text := by
  induction text with
  | nil => cases h
  | cons c rest ih =>
    unfold findUrl at h
    by_cases hh : isHttpAt (c :: rest) = true
    · unfold isHttpAt at hh
      rcases Bool.or_eq_true_iff.mp hh with h1 | h1
      · rcases (listStartsWith_iff_append _ _).mp h1 with ⟨rr, heq⟩
        rw [heq]
        exact List.mem_append_left _ (by decide)
      · rcases (listStartsWith_iff_append _ _).mp h1 with ⟨rr, heq⟩
        rw [heq]
        exact List.mem_append_left _ (by decide)
    · rw [if_neg hh] at h
      exact List.mem_cons_of_mem _ (ih h)

/-- A message containing an extractable URL is never a valid tag after
trimming: the URL's colon survives `trim` and fails the tag regex. -/
theorem trimmed_url_text_invalid {text url : List Char}
    (h : findUrl text = some url) :
    trimS text ≠ [] ∧ isValidAmazonTag (trimS text) = false := by
  have hc : ':' ∈ trimS text :=
    mem_trimS_of_mem (findUrl_mem_colon h) (by decide)
  refine ⟨?_, isValidAmazonTag_false_of_badChar hc (by decide) (by decide)⟩
  intro hnil
  rw [hnil] at hc
  cases hc

/-! ## Claim C4 -/

/-- C4: for every parseable URL and every supplied tag, the webhook
rewriter removes the pre-existing affiliate parameters (the set
{tag, linkCode, ascsubtag, creativeASIN, ref_}, `stripAff`), appends
`tag` with the supplied value, and preserves scheme, host and path; a
non-parseable input is returned unchanged. The rewriter is a total
function on strings, so no exception escapes it. (The supplied tag is
taken ampersand-free, the invariant URLSearchParams percent-encoding
maintains in the source code.) -/
theorem C4_rewrite_contract (url t : List Char) (ht : t ≠ [])
    (hamp : '&' ∉ t) :
    (∀ u, parseUrl url = some u →
      parseUrl (convertToAffiliateLink_api url (some t)) =
        some ⟨u.scheme, u.host, u.path,
          stripAff u.query ++ [(cs "tag", t)]⟩) ∧
    (parseUrl url = none →
      convertToAffiliateLink_api url (some t) = url) := by
  constructor
  · intro u hu
    exact parse_convert_api hu ht hamp
  · intro hn
    unfold convertToAffiliateLink_api
    simp [(isEmpty_false_iff t).mpr ht, hn]

/-- Witness for C4 at a concrete URL carrying stale affiliate
parameters and an unrelated parameter. -/
theorem C4_witness :
    parseUrl (convertToAffiliateLink_api
        (cs "https://www.amazon.com/dp/B00005N5PF?tag=old-1&ref_=x&foo=bar")
        (some (cs "store-20"))) =
      some ⟨cs "https", cs "www.amazon.com", cs "/dp/B00005N5PF",
        [(cs "foo", cs "bar"), (cs "tag", cs "store-20")]⟩ := by
  have h := (C4_rewrite_contract
      (cs "https://www.amazon.com/dp/B00005N5PF?tag=old-1&ref_=x&foo=bar")
      (cs "store-20") (by decide) (by decide)).1
  have hp : parseUrl
      (cs "https://www.amazon.com/dp/B00005N5PF?tag=old-1&ref_=x&foo=bar") =
      some ⟨cs "https", cs "www.amazon.com", cs "/dp/B00005N5PF",
        [(cs "tag", cs "old-1"), (cs "ref_", cs "x"),
         (cs "foo", cs "bar")]⟩ := by decide
  have h2 := h _ hp
  rw [h2]
  decide

/-! ## Claim C9 (counterexample) -/

/-- C9 counterexample: at the input "x" (not a parseable URL, not an
Amazon product URL) the double rewrite of both rewriters is the
identity, and the result carries zero `tag` parameters — not exactly
one equal to the second tag — so the claim fails as universally
stated. -/
theorem C9_counterexample :
    convertToAffiliateLink_api
        (convertToAffiliateLink_api (cs "x") (some (cs "a-1")))
        (some (cs "b-2")) = cs "x" ∧
    convertToAffiliateLink_bot
        (convertToAffiliateLink_bot (cs "x") (some (cs "a-1")))
        (some (cs "b-2")) = cs "x" ∧
    tagParamCount (cs "x") = 0 := by decide

/-! ## Claim C2 (counterexample) -/

/-- C2 counterexample: "https://example.com/x" is classified `unknown`
(neither an Amazon marketplace domain nor an allow-listed shortener),
yet the webhook pipeline passes it to the resolver: its outcome depends
on the resolver's answer, and when the stub resolver lands on an Amazon
URL the pipeline emits an affiliate link instead of rejecting with
not-amazon. -/
theorem C2_counterexample :
    anyAmazonDomain (cs "https://example.com/x") = false ∧
    isShortAmazonLink (cs "https://example.com/x") = false ∧
    handleApi (some (cs "store-20")) (fun _ => none)
        (cs "https://example.com/x") =
      ⟨[.resolving, .resolveFailedApi], some (cs "store-20")⟩ ∧
    handleApi (some (cs "store-20"))
        (fun _ => some (cs "https://www.amazon.com/dp/B00005N5PF"))
        (cs "https://example.com/x") =
      ⟨[.resolving,
        .affiliate (cs "https://www.amazon.com/dp/B00005N5PF?tag=store-20")],
        some (cs "store-20")⟩ := by decide

/-! ## Claim C1 (counterexample) -/

/-- C1 counterexample: a tagless user sends a convertible direct Amazon
link to the polling bot; the reply is `convertFailedBot` ("Could not
convert the link. Please ensure it's a valid Amazon product page URL
…"), which does not instruct the user to register a tag.  (No
affiliate URL and no unmodified link is emitted, but the required
instruction is absent.) -/
theorem C1_counterexample :
    handleBot false none (fun _ => none)
        (cs "https://www.amazon.com/dp/B00005N5PF") =
      ⟨[.convertFailedBot], false, none⟩ ∧
    (amazonLongMatch (cs "https://www.amazon.com/dp/B00005N5PF")).isSome
      = true ∧
    mentionsTagSetup .convertFailedBot = false := by decide

/-- C1 (amended): for a tagless caller sending a non-command message
that carries an extractable URL, the webhook intercepts the message in
its tag-capture branch and replies with the provide-a-valid-tag
instruction (`invalidTagApi`, which mentions the Associate Tag),
storing nothing; the polling bot instead rejects with
`convertFailedBot`, whose text does not mention tags.  In both
implementations no affiliate URL and no unmodified link is emitted. -/
theorem C1_theorem (text url : List Char)
    (r rb : List Char → Option (List Char))
    (hcmd : listStartsWith (cs "/") text = false)
    (hurl : findUrl text = some url) :
    handleApi none r text = ⟨[.invalidTagApi], none⟩ ∧
    mentionsTagSetup .invalidTagApi = true ∧
    (∀ d a, isShortAmazonLink url = false →
      amazonLongMatch url = some (d, a) →
      handleBot false none rb text = ⟨[.convertFailedBot], false, none⟩) := by
  obtain ⟨hne, hinv⟩ := trimmed_url_text_invalid hurl
  have hsettag : (text == cs "/settag") = false := by
    by_contra hq
    rw [Bool.not_eq_false, beq_iff_eq] at hq
    subst hq
    exact absurd hcmd (by decide)
  refine ⟨?_, rfl, ?_⟩
  · unfold handleApi
    simp [hsettag, hcmd, hinv]
  · intro d a hshort hmatch
    unfold handleBot
    simp [hcmd, hurl, hshort, hmatch, botConvertPhase,
      convertToAffiliateLink_bot]

/-- Witness for C1 at the concrete direct link, for both pipelines. -/
theorem C1_witness :
    handleApi none (fun _ => none)
        (cs "https://www.amazon.com/dp/B00005N5PF") =
      ⟨[.invalidTagApi], none⟩ ∧
    handleBot false none (fun _ => some (cs "u"))
        (cs "https://www.amazon.com/dp/B00005N5PF") =
      ⟨[.convertFailedBot], false, none⟩ := by
  have h := C1_theorem (cs "https://www.amazon.com/dp/B00005N5PF")
      (cs "https://www.amazon.com/dp/B00005N5PF") (fun _ => none)
      (fun _ => some (cs "u")) (by decide) (by decide)
  exact ⟨h.1, h.2.2 (cs "amazon.com") (cs "B00005N5PF") (by decide)
    (by decide)⟩

/-! ## Lemmas: case-insensitive matching and the long-link regex -/

theorem toNat_ofNat_of_valid {n : Nat} (h : n.isValidChar) :
    (Char.ofNat n).toNat = n := by
  unfold Char.ofNat
  rw [dif_pos h]
  rfl

theorem char_toNat_le_of_le {a y : Char} (h : a ≤ y) :
    a.toNat ≤ y.toNat := by
  rw [Char.le_def, UInt32.le_def, BitVec.le_def] at h
  exact h

/-- ASCII lower-casing can only produce a lower-case letter or leave
the character unchanged; so a target below the lower-case range pins
the character down exactly. -/
theorem lowerC_eq_nonletter {y c : Char} (hc : lowerC y = c)
    (hcr : c.toNat < 97) : y = c := by
  unfold lowerC at hc
  split at hc
  · rename_i hy
    exfalso
    simp only [Bool.and_eq_true, decide_eq_true_eq] at hy
    have h1 : 65 ≤ y.toNat := by
      have := char_toNat_le_of_le hy.1
      simpa using this
    have h2 : y.toNat ≤ 90 := by
      have := char_toNat_le_of_le hy.2
      simpa using this
    have hvalid : (y.toNat + 32).isValidChar := Or.inl (by omega)
    have h3 := toNat_ofNat_of_valid hvalid
    rw [hc] at h3
    omega
  · exact hc

theorem eq_slash_of_lowerC {y : Char} (h : lowerC y = '/') : y = '/' :=
  lowerC_eq_nonletter h (by decide)

theorem lstartsCI_eq_listStartsWith (p l : List Char) :
    lstartsCI p l = listStartsWith p (lowerS l) := by
  induction p generalizing l with
  | nil => cases l <;> rfl
  | cons c ps ih =>
    cases l with
    | nil => rfl
    | cons d ds => simp [lstartsCI, listStartsWith, lowerS, ih]

theorem lstartsCI_append (p q l : List Char) :
    lstartsCI (p ++ q) l =
      (lstartsCI p l && lstartsCI q (l.drop p.length)) := by
  induction p generalizing l with
  | nil => simp [lstartsCI]
  | cons c ps ih =>
    cases l with
    | nil => simp [lstartsCI]
    | cons d ds => simp [lstartsCI, ih, Bool.and_assoc]

theorem lowerS_take_of_lstartsCI {p l : List Char}
    (h : lstartsCI p l = true) : lowerS (l.take p.length) = p := by
  induction p generalizing l with
  | nil => simp [lowerS]
  | cons c ps ih =>
    cases l with
    | nil => cases h
    | cons d ds =>
      simp only [lstartsCI, Bool.and_eq_true, beq_iff_eq] at h
      simp only [List.length_cons, List.take_succ_cons, lowerS, List.map_cons]
      have := ih h.2
      unfold lowerS at this
      rw [this, ← h.1]

theorem lstartsCI_of_lowerS {pfx m : List Char} :
    lstartsCI (lowerS pfx) (pfx ++ m) = true := by
  induction pfx with
  | nil => cases m <;> rfl
  | cons c rest ih =>
    simp only [lowerS, List.map_cons, List.cons_append, lstartsCI,
      beq_self_eq_true, Bool.true_and]
    exact ih

theorem containsCI_cons_of (pat : List Char) (c : Char) {rest : List Char}
    (h : containsCI pat rest = true) :
    containsCI pat (c :: rest) = true := by
  unfold containsCI
  rw [h]
  simp

theorem containsCI_of_lstartsCI {pat l : List Char}
    (h : lstartsCI pat l = true) : containsCI pat l = true := by
  cases l with
  | nil => unfold containsCI; exact h
  | cons c rest => unfold containsCI; rw [h]; rfl

theorem slash_mem_of_lstartsCI {pat l : List Char}
    (hps : '/' ∈ pat) (h : lstartsCI pat l = true) : '/' ∈ l := by
  induction pat generalizing l with
  | nil => cases hps
  | cons p ps ih =>
    cases l with
    | nil => cases h
    | cons y ys =>
      simp only [lstartsCI, Bool.and_eq_true, beq_iff_eq] at h
      rcases List.mem_cons.mp hps with rfl | hps'
      · have hy : y = '/' := eq_slash_of_lowerC h.1.symm
        rw [hy]
        exact List.mem_cons_self _ _
      · exact List.mem_cons_of_mem _ (ih hps' h.2)

theorem grab10_sound {l a : List Char} (h : grab10Alnum l = some a) :
    a = l.take 10 ∧ a.length = 10 ∧ a.all isAlnumC = true := by
  unfold grab10Alnum at h
  split at h
  · rename_i hcond
    injection h with h
    subst h
    simp only [Bool.and_eq_true, decide_eq_true_eq] at hcond
    exact ⟨rfl, hcond.1, hcond.2⟩
  · cases h

theorem tryDpAt_sound {l a : List Char} (h : tryDpAt l = some a) :
    a.length = 10 ∧ a.all isAlnumC = true ∧ '/' ∈ l := by
  unfold tryDpAt at h
  split at h
  · rename_i hdp
    obtain ⟨-, h10, hal⟩ := grab10_sound h
    exact ⟨h10, hal, slash_mem_of_lstartsCI (by decide) hdp⟩
  · split at h
    · rename_i hgp
      obtain ⟨-, h10, hal⟩ := grab10_sound h
      exact ⟨h10, hal, slash_mem_of_lstartsCI (by decide) hgp⟩
    · cases h

theorem lastDpMatch_sound {m a : List Char} (h : lastDpMatch m = some a) :
    a.length = 10 ∧ a.all isAlnumC = true := by
  induction m with
  | nil => cases h
  | cons c rest ih =>
    unfold lastDpMatch at h
    split at h
    · rename_i a' heq
      injection h with h
      subst h
      exact ih heq
    · obtain ⟨h10, hal, -⟩ := tryDpAt_sound h
      exact ⟨h10, hal⟩

theorem lastDpMatch_none_of_no_slash {m : List Char} (h : '/' ∉ m) :
    lastDpMatch m = none := by
  induction m with
  | nil => rfl
  | cons c rest ih =>
    have hrest : '/' ∉ rest := fun hm => h (List.mem_cons_of_mem _ hm)
    unfold lastDpMatch
    rw [ih hrest]
    show tryDpAt (c :: rest) = none
    rcases ht : tryDpAt (c :: rest) with _ | a
    · rfl
    · exact absurd (tryDpAt_sound ht).2.2 h

/-- The product block of the canonical reconstruction
`dp/{ASIN}?tag={tag}` is the unique (hence rightmost) match of the
greedy `.*(?:dp|gp\/product)\/([A-Z0-9]{10})` tail, provided nothing
after the leading `dp/` contains a slash. -/
theorem lastDpMatch_canonical {a q : List Char} (h10 : a.length = 10)
    (hal : a.all isAlnumC = true) (hq : '/' ∉ a ++ q) :
    lastDpMatch (cs "dp/" ++ (a ++ q)) = some a := by
  have h1 : lastDpMatch (a ++ q) = none := lastDpMatch_none_of_no_slash hq
  have h2 : lastDpMatch ('/' :: (a ++ q)) = none := by
    unfold lastDpMatch
    rw [h1]
    rfl
  have h3 : lastDpMatch ('p' :: '/' :: (a ++ q)) = none := by
    unfold lastDpMatch
    rw [h2]
    rfl
  show lastDpMatch ('d' :: 'p' :: '/' :: (a ++ q)) = some a
  unfold lastDpMatch
  rw [h3]
  show tryDpAt ('d' :: 'p' :: '/' :: (a ++ q)) = some a
  have htake : (a ++ q).take 10 = a := by
    rw [← h10]
    exact List.take_left a q
  show grab10Alnum (a ++ q) = some a
  unfold grab10Alnum
  rw [htake]
  simp [h10, hal]

theorem tryTlds_sound : ∀ {ts : List (List Char)} {rest tldtxt a : List Char},
    tryTlds ts rest = some (tldtxt, a) →
    ∃ t ∈ ts, lstartsCI t rest = true ∧ tldtxt = rest.take t.length ∧
      ∃ tail, rest.drop t.length = '/' :: tail ∧
        lastDpMatch tail = some a := by
  intro ts
  induction ts with
  | nil => intro rest tldtxt a h; cases h
  | cons t ts ih =>
    intro rest tldtxt a h
    unfold tryTlds at h
    split at h
    · rename_i hstart
      split at h
      · rcases ih h with ⟨t', ht', r⟩
        exact ⟨t', List.mem_cons_of_mem _ ht', r⟩
      · rename_i c tail hdrop
        split at h
        · rename_i hc
          split at h
          · rename_i a' hlast
            injection h with h
            injection h with h1 h2
            subst h1
            subst h2
            refine ⟨t, List.mem_cons_self _ _, hstart, rfl, tail, ?_, hlast⟩
            rw [hdrop, beq_iff_eq.mp hc]
          · rcases ih h with ⟨t', ht', r⟩
            exact ⟨t', List.mem_cons_of_mem _ ht', r⟩
        · rcases ih h with ⟨t', ht', r⟩
          exact ⟨t', List.mem_cons_of_mem _ ht', r⟩
    · rcases ih h with ⟨t', ht', r⟩
      exact ⟨t', List.mem_cons_of_mem _ ht', r⟩

theorem tryAmazonAt_sound {l d a : List Char}
    (h : tryAmazonAt l = some (d, a)) :
    lstartsCI (cs "amazon.") l = true ∧
    ∃ t ∈ tlds, lstartsCI t (l.drop 7) = true ∧
      d = l.take 7 ++ (l.drop 7).take t.length ∧
      ∃ tail, (l.drop 7).drop t.length = '/' :: tail ∧
        lastDpMatch tail = some a := by
  unfold tryAmazonAt at h
  split at h
  · rename_i hstart
    split at h
    · rename_i tld a' htt
      injection h with h
      injection h with h1 h2
      subst h2
      obtain ⟨t, htmem, hst, htake, r⟩ := tryTlds_sound htt
      refine ⟨hstart, t, htmem, hst, ?_, r⟩
      rw [← h1, htake]
    · cases h
  · cases h

theorem amazonLongMatch_sound {url d a : List Char}
    (h : amazonLongMatch url = some (d, a)) :
    ∃ t ∈ tlds, lowerS d = cs "amazon." ++ t ∧ a.length = 10 ∧
      a.all isAlnumC = true ∧ containsCI (cs "amazon." ++ t) url = true := by
  induction url with
  | nil => cases h
  | cons c rest ih =>
    unfold amazonLongMatch at h
    split at h
    · rename_i r hr
      injection h with h
      subst h
      obtain ⟨hstart, t, htmem, htld, hd, tail, hdrop, hlast⟩ :=
        tryAmazonAt_sound hr
      obtain ⟨h10, hal⟩ := lastDpMatch_sound hlast
      refine ⟨t, htmem, ?_, h10, hal, ?_⟩
      · rw [hd]
        unfold lowerS
        rw [List.map_append]
        have ha1 := lowerS_take_of_lstartsCI hstart
        have ha2 := lowerS_take_of_lstartsCI htld
        unfold lowerS at ha1 ha2
        rw [show (cs "amazon.").length = 7 from rfl] at ha1
        rw [ha1, ha2]
      · have hcomb : lstartsCI (cs "amazon." ++ t) (c :: rest) = true := by
          rw [lstartsCI_append, show (cs "amazon.").length = 7 from rfl,
            hstart, htld]
          rfl
        exact containsCI_of_lstartsCI hcomb
    · rcases ih h with ⟨t, htmem, r1, r2, r3, r4⟩
      exact ⟨t, htmem, r1, r2, r3, containsCI_cons_of _ c r4⟩

theorem anyAmazonDomain_of_longMatch {url d a : List Char}
    (h : amazonLongMatch url = some (d, a)) :
    anyAmazonDomain url = true := by
  obtain ⟨t, htmem, -, -, -, hcont⟩ := amazonLongMatch_sound h
  unfold anyAmazonDomain
  rw [List.any_eq_true]
  exact ⟨t, htmem, hcont⟩

theorem amazonLongMatch_none_of_not_domain {url : List Char}
    (h : anyAmazonDomain url = false) : amazonLongMatch url = none := by
  rcases hm : amazonLongMatch url with _ | ⟨d, a⟩
  · rfl
  · rw [anyAmazonDomain_of_longMatch hm] at h
    cases h

/-- C2 (amended): in the polling bot, an extracted URL matching neither
the Amazon marketplace regex nor the shortener allow-list is rejected
with the not-amazon reply, and the outcome is the same for every
resolver — the resolver is never consulted.  The webhook has no
shortener allow-list: every extracted URL not containing an Amazon
marketplace domain is handed to the resolver, and the pipeline's
outcome follows the resolver's answer (failure, Amazon target, or
non-Amazon target). -/
theorem C2_theorem (text url : List Char)
    (hcmd : listStartsWith (cs "/") text = false)
    (hurl : findUrl text = some url)
    (hdom : anyAmazonDomain url = false)
    (hshort : isShortAmazonLink url = false) :
    (∀ (rb : List Char → Option (List Char)) (tg : Option (List Char)),
      handleBot false tg rb text = ⟨[.notAmazonBot], false, tg⟩) ∧
    (∀ (r : List Char → Option (List Char)) (tg : List Char),
      (r url = none →
        handleApi (some tg) r text =
          ⟨[.resolving, .resolveFailedApi], some tg⟩) ∧
      (∀ v, r url = some v →
        handleApi (some tg) r text =
          if anyAmazonDomain v then
            ⟨apiConvertPhase (some tg) [.resolving] v, some tg⟩
          else ⟨[.resolving, .notAmazonApi], some tg⟩)) := by
  have hsettag : (text == cs "/settag") = false := by
    by_contra hq
    rw [Bool.not_eq_false, beq_iff_eq] at hq
    subst hq
    exact absurd hcmd (by decide)
  have hmatch := amazonLongMatch_none_of_not_domain hdom
  constructor
  · intro rb tg
    unfold handleBot
    simp [hcmd, hurl, hshort, hmatch]
  · intro r tg
    constructor
    · intro hr
      unfold handleApi
      simp [hsettag, hcmd, hurl, hdom, hr]
    · intro v hr
      unfold handleApi
      simp [hsettag, hcmd, hurl, hdom, hr]

/-- Witness for C2 at the unknown URL "https://example.com/x". -/
theorem C2_witness :
    handleBot false (some (cs "t-1")) (fun _ => some (cs "ignored"))
        (cs "https://example.com/x") =
      ⟨[.notAmazonBot], false, some (cs "t-1")⟩ ∧
    handleApi (some (cs "store-20")) (fun _ => none)
        (cs "https://example.com/x") =
      ⟨[.resolving, .resolveFailedApi], some (cs "store-20")⟩ := by
  have h := C2_theorem (cs "https://example.com/x")
      (cs "https://example.com/x") (by decide) (by decide) (by decide)
      (by decide)
  exact ⟨h.1 _ _, (h.2 (fun _ => none) (cs "store-20")).1 rfl⟩

/-! ## Claim C5 -/

theorem followRedirects_some_iff (T : List Char → FetchResult) :
    ∀ (fuel : Nat) (u w : List Char),
      followRedirects T fuel u = some w ↔
        ∃ n, n ≤ fuel ∧ RedirChain T u n w ∧ SuccessAt T w := by
  intro fuel
  induction fuel with
  | zero =>
    intro u w
    constructor
    · intro h
      unfold followRedirects at h
      split at h
      · rename_i c hc
        split at h
        · rename_i hsucc
          injection h with h
          subst h
          exact ⟨0, Nat.le_refl 0, .zero u, c, hc, hsucc.1, hsucc.2⟩
        · cases h
      · cases h
    · rintro ⟨n, hn, hchain, c, hc, hsucc⟩
      obtain rfl : n = 0 := Nat.le_zero.mp hn
      cases hchain with
      | zero =>
        unfold followRedirects
        rw [hc]
        simp [hsucc]
  | succ n ih =>
    intro u w
    constructor
    · intro h
      unfold followRedirects at h
      split at h
      · rename_i c hc
        split at h
        · rename_i hsucc
          injection h with h
          subst h
          exact ⟨0, Nat.zero_le _, .zero u, c, hc, hsucc.1, hsucc.2⟩
        · cases h
      · cases h
      · rename_i loc hloc
        rcases (ih loc w).mp h with ⟨m, hm, hchain, hsucc⟩
        exact ⟨m + 1, Nat.succ_le_succ hm, .succ hloc hchain, hsucc⟩
    · rintro ⟨m, hm, hchain, hsucc⟩
      cases hchain with
      | zero =>
        obtain ⟨c, hc, h2, h3⟩ := hsucc
        unfold followRedirects
        rw [hc]
        simp [h2, h3]
      | @succ _ v _ m' hred hrest =>
        unfold followRedirects
        rw [hred]
        show followRedirects T n v = some w
        exact (ih v w).mpr ⟨m', Nat.succ_le_succ_iff.mp hm, hrest, hsucc⟩

/-- C5: the resolver returns the final landed URL exactly when the
redirect chain reaches, within the 10-hop cap, a URL whose fetch is a
success status (2xx); it returns the failure value `none` in every
other case — network error on the path, more than 10 redirects, or a
non-success terminal status.  In particular the stub transport `capT`,
which redirects 11 times starting from the empty URL, fails, while the
10-redirect chain from a one-character URL succeeds with the landed
URL. -/
theorem C5_resolver_contract :
    (∀ (T : List Char → FetchResult) (u w : List Char),
      resolveUrl T u = some w ↔
        ∃ n, n ≤ 10 ∧ RedirChain T u n w ∧ SuccessAt T w) ∧
    resolveUrl capT [] = none ∧
    resolveUrl capT ['x'] = some (List.replicate 11 'x') := by
  refine ⟨fun T u w => followRedirects_some_iff T 10 u w, by decide, by decide⟩

/-! ## Lemmas: re-matching the canonical reconstruction

The bot rewriter emits `https://{domain}/dp/{ASIN}?tag={tag}`.  The
lemmas below show that running the long-link regex on that output finds
the same domain and ASIN again, which drives the idempotence claim. -/

theorem amazonLongMatch_cons_none {c : Char} {m : List Char}
    (h : tryAmazonAt (c :: m) = none) :
    amazonLongMatch (c :: m) = amazonLongMatch m := by
  conv_lhs => unfold amazonLongMatch
  rw [h]

theorem amazonLongMatch_cons_some {c : Char} {m : List Char}
    {r : List Char × List Char} (h : tryAmazonAt (c :: m) = some r) :
    amazonLongMatch (c :: m) = some r := by
  conv_lhs => unfold amazonLongMatch
  rw [h]

theorem tryAmazonAt_head_ne {c : Char} {m : List Char}
    (h : ('a' == lowerC c) = false) : tryAmazonAt (c :: m) = none := by
  have hst : lstartsCI (cs "amazon.") (c :: m) = false := by
    show (('a' == lowerC c) && lstartsCI (cs "mazon.") m) = false
    rw [h]
    rfl
  unfold tryAmazonAt
  simp [hst]

theorem exists_cons_of_lowerS_cons {m : List Char} {c : Char}
    {p : List Char} (h : lowerS m = c :: p) :
    ∃ y ys, m = y :: ys ∧ lowerC y = c ∧ lowerS ys = p := by
  cases m with
  | nil => cases h
  | cons y ys =>
    unfold lowerS at h
    simp only [List.map_cons, List.cons.injEq] at h
    exact ⟨y, ys, rfl, h.1, h.2⟩

theorem tryTlds_step_skip {u : List Char} {ts : List (List Char)}
    {rest : List Char} (h : lstartsCI u rest = false) :
    tryTlds (u :: ts) rest = tryTlds ts rest := by
  conv_lhs => unfold tryTlds
  simp [h]

theorem tryTlds_step_skip2 {u : List Char} {ts : List (List Char)}
    {rest : List Char} {y : Char} {z : List Char}
    (hst : lstartsCI u rest = true)
    (hdrop : rest.drop u.length = y :: z)
    (hy : (y == '/') = false) :
    tryTlds (u :: ts) rest = tryTlds ts rest := by
  conv_lhs => unfold tryTlds
  simp [hst, hdrop, hy]

theorem tryTlds_step_match {u : List Char} {ts : List (List Char)}
    {rest tail a : List Char}
    (hst : lstartsCI u rest = true)
    (hdrop : rest.drop u.length = '/' :: tail)
    (hlast : lastDpMatch tail = some a) :
    tryTlds (u :: ts) rest = some (rest.take u.length, a) := by
  conv_lhs => unfold tryTlds
  simp [hst, hdrop, hlast]

/-- At the domain position of the canonical reconstruction
`{dtl}/dp/{ASIN}?tag={tag}` the TLD alternation selects exactly the TLD
the domain carries and captures the same ASIN: every alternative tried
earlier in source order either mismatches within its concrete
characters or (the case `com` before `com.au`) matches but is not
followed by `/`. -/
theorem tryTlds_canonical {tld dtl a q : List Char}
    (htld : tld ∈ tlds) (hdtl : lowerS dtl = tld)
    (hlast : lastDpMatch (cs "dp/" ++ (a ++ q)) = some a) :
    tryTlds tlds (dtl ++ (cs "/dp/" ++ (a ++ q))) = some (dtl, a) := by
  have hlen : dtl.length = tld.length := by
    have h1 : (lowerS dtl).length = dtl.length := List.length_map _ _
    rw [hdtl] at h1
    exact h1.symm
  have hst : lstartsCI tld (dtl ++ (cs "/dp/" ++ (a ++ q))) = true := by
    rw [← hdtl]
    exact lstartsCI_of_lowerS
  have hdrop : (dtl ++ (cs "/dp/" ++ (a ++ q))).drop tld.length =
      '/' :: (cs "dp/" ++ (a ++ q)) := by
    rw [← hlen]
    exact List.drop_left _ _
  have htake : (dtl ++ (cs "/dp/" ++ (a ++ q))).take tld.length = dtl := by
    rw [← hlen]
    exact List.take_left _ _
  have hlow : lowerS (dtl ++ (cs "/dp/" ++ (a ++ q))) =
      tld ++ ('/' :: 'd' :: 'p' :: '/' :: lowerS (a ++ q)) := by
    unfold lowerS
    rw [List.map_append]
    unfold lowerS at hdtl
    rw [hdtl]
    rfl
  have hmem := htld
  simp only [tlds, List.mem_cons, List.not_mem_nil, or_false] at hmem
  rcases hmem with rfl | rfl | rfl | rfl | rfl | rfl | rfl | rfl | rfl |
    rfl | rfl
  · -- com
    unfold tlds
    rw [tryTlds_step_match hst hdrop hlast, htake]
  · -- co.uk
    unfold tlds
    rw [tryTlds_step_skip (u := cs "com")
        (by rw [lstartsCI_eq_listStartsWith, hlow]; rfl)]
    rw [tryTlds_step_match hst hdrop hlast, htake]
  · -- de
    unfold tlds
    rw [tryTlds_step_skip (u := cs "com")
        (by rw [lstartsCI_eq_listStartsWith, hlow]; rfl)]
    rw [tryTlds_step_skip (u := cs "co.uk")
        (by rw [lstartsCI_eq_listStartsWith, hlow]; rfl)]
    rw [tryTlds_step_match hst hdrop hlast, htake]
  · -- fr
    unfold tlds
    rw [tryTlds_step_skip (u := cs "com")
        (by rw [lstartsCI_eq_listStartsWith, hlow]; rfl)]
    rw [tryTlds_step_skip (u := cs "co.uk")
        (by rw [lstartsCI_eq_listStartsWith, hlow]; rfl)]
    rw [tryTlds_step_skip (u := cs "de")
        (by rw [lstartsCI_eq_listStartsWith, hlow]; rfl)]
    rw [tryTlds_step_match hst hdrop hlast, htake]
  · -- es
    unfold tlds
    rw [tryTlds_step_skip (u := cs "com")
        (by rw [lstartsCI_eq_listStartsWith, hlow]; rfl)]
    rw [tryTlds_step_skip (u := cs "co.uk")
        (by rw [lstartsCI_eq_listStartsWith, hlow]; rfl)]
    rw [tryTlds_step_skip (u := cs "de")
        (by rw [lstartsCI_eq_listStartsWith, hlow]; rfl)]
    rw [tryTlds_step_skip (u := cs "fr")
        (by rw [lstartsCI_eq_listStartsWith, hlow]; rfl)]
    rw [tryTlds_step_match hst hdrop hlast, htake]
  · -- it
    unfold tlds
    rw [tryTlds_step_skip (u := cs "com")
        (by rw [lstartsCI_eq_listStartsWith, hlow]; rfl)]
    rw [tryTlds_step_skip (u := cs "co.uk")
        (by rw [lstartsCI_eq_listStartsWith, hlow]; rfl)]
    rw [tryTlds_step_skip (u := cs "de")
        (by rw [lstartsCI_eq_listStartsWith, hlow]; rfl)]
    rw [tryTlds_step_skip (u := cs "fr")
        (by rw [lstartsCI_eq_listStartsWith, hlow]; rfl)]
    rw [tryTlds_step_skip (u := cs "es")
        (by rw [lstartsCI_eq_listStartsWith, hlow]; rfl)]
    rw [tryTlds_step_match hst hdrop hlast, htake]
  · -- ca
    unfold tlds
    rw [tryTlds_step_skip (u := cs "com")
        (by rw [lstartsCI_eq_listStartsWith, hlow]; rfl)]
    rw [tryTlds_step_skip (u := cs "co.uk")
        (by rw [lstartsCI_eq_listStartsWith, hlow]; rfl)]
    rw [tryTlds_step_skip (u := cs "de")
        (by rw [lstartsCI_eq_listStartsWith, hlow]; rfl)]
    rw [tryTlds_step_skip (u := cs "fr")
        (by rw [lstartsCI_eq_listStartsWith, hlow]; rfl)]
    rw [tryTlds_step_skip (u := cs "es")
        (by rw [lstartsCI_eq_listStartsWith, hlow]; rfl)]
    rw [tryTlds_step_skip (u := cs "it")
        (by rw [lstartsCI_eq_listStartsWith, hlow]; rfl)]
    rw [tryTlds_step_match hst hdrop hlast, htake]
  · -- com.au : "com" matches but is followed by '.', not '/'
    obtain ⟨y1, m1, rfl, hy1, hm1⟩ := exists_cons_of_lowerS_cons hdtl
    obtain ⟨y2, m2, rfl, hy2, hm2⟩ := exists_cons_of_lowerS_cons hm1
    obtain ⟨y3, m3, rfl, hy3, hm3⟩ := exists_cons_of_lowerS_cons hm2
    obtain ⟨y4, m4, rfl, hy4, hm4⟩ := exists_cons_of_lowerS_cons hm3
    have hcom_st : lstartsCI (cs "com")
        ((y1 :: y2 :: y3 :: y4 :: m4) ++ (cs "/dp/" ++ (a ++ q))) = true := by
      rw [lstartsCI_eq_listStartsWith, hlow]
      rfl
    have hcom_drop : ((y1 :: y2 :: y3 :: y4 :: m4) ++
        (cs "/dp/" ++ (a ++ q))).drop (cs "com").length =
        y4 :: (m4 ++ (cs "/dp/" ++ (a ++ q))) := rfl
    have hy4ne : (y4 == '/') = false := by
      rw [beq_eq_false_iff_ne]
      intro hcon
      rw [hcon] at hy4
      exact absurd hy4 (by decide)
    unfold tlds
    rw [tryTlds_step_skip2 hcom_st hcom_drop hy4ne]
    rw [tryTlds_step_skip (u := cs "co.uk")
        (by rw [lstartsCI_eq_listStartsWith, hlow]; rfl)]
    rw [tryTlds_step_skip (u := cs "de")
        (by rw [lstartsCI_eq_listStartsWith, hlow]; rfl)]
    rw [tryTlds_step_skip (u := cs "fr")
        (by rw [lstartsCI_eq_listStartsWith, hlow]; rfl)]
    rw [tryTlds_step_skip (u := cs "es")
        (by rw [lstartsCI_eq_listStartsWith, hlow]; rfl)]
    rw [tryTlds_step_skip (u := cs "it")
        (by rw [lstartsCI_eq_listStartsWith, hlow]; rfl)]
    rw [tryTlds_step_skip (u := cs "ca")
        (by rw [lstartsCI_eq_listStartsWith, hlow]; rfl)]
    rw [tryTlds_step_match hst hdrop hlast, htake]
  · -- co.jp
    unfold tlds
    rw [tryTlds_step_skip (u := cs "com")
        (by rw [lstartsCI_eq_listStartsWith, hlow]; rfl)]
    rw [tryTlds_step_skip (u := cs "co.uk")
        (by rw [lstartsCI_eq_listStartsWith, hlow]; rfl)]
    rw [tryTlds_step_skip (u := cs "de")
        (by rw [lstartsCI_eq_listStartsWith, hlow]; rfl)]
    rw [tryTlds_step_skip (u := cs "fr")
        (by rw [lstartsCI_eq_listStartsWith, hlow]; rfl)]
    rw [tryTlds_step_skip (u := cs "es")
        (by rw [lstartsCI_eq_listStartsWith, hlow]; rfl)]
    rw [tryTlds_step_skip (u := cs "it")
        (by rw [lstartsCI_eq_listStartsWith, hlow]; rfl)]
    rw [tryTlds_step_skip (u := cs "ca")
        (by rw [lstartsCI_eq_listStartsWith, hlow]; rfl)]
    rw [tryTlds_step_skip (u := cs "com.au")
        (by rw [lstartsCI_eq_listStartsWith, hlow]; rfl)]
    rw [tryTlds_step_match hst hdrop hlast, htake]
  · -- cn
    unfold tlds
    rw [tryTlds_step_skip (u := cs "com")
        (by rw [lstartsCI_eq_listStartsWith, hlow]; rfl)]
    rw [tryTlds_step_skip (u := cs "co.uk")
        (by rw [lstartsCI_eq_listStartsWith, hlow]; rfl)]
    rw [tryTlds_step_skip (u := cs "de")
        (by rw [lstartsCI_eq_listStartsWith, hlow]; rfl)]
    rw [tryTlds_step_skip (u := cs "fr")
        (by rw [lstartsCI_eq_listStartsWith, hlow]; rfl)]
    rw [tryTlds_step_skip (u := cs "es")
        (by rw [lstartsCI_eq_listStartsWith, hlow]; rfl)]
    rw [tryTlds_step_skip (u := cs "it")
        (by rw [lstartsCI_eq_listStartsWith, hlow]; rfl)]
    rw [tryTlds_step_skip (u := cs "ca")
        (by rw [lstartsCI_eq_listStartsWith, hlow]; rfl)]
    rw [tryTlds_step_skip (u := cs "com.au")
        (by rw [lstartsCI_eq_listStartsWith, hlow]; rfl)]
    rw [tryTlds_step_skip (u := cs "co.jp")
        (by rw [lstartsCI_eq_listStartsWith, hlow]; rfl)]
    rw [tryTlds_step_match hst hdrop hlast, htake]
  · -- in
    unfold tlds
    rw [tryTlds_step_skip (u := cs "com")
        (by rw [lstartsCI_eq_listStartsWith, hlow]; rfl)]
    rw [tryTlds_step_skip (u := cs "co.uk")
        (by rw [lstartsCI_eq_listStartsWith, hlow]; rfl)]
    rw [tryTlds_step_skip (u := cs "de")
        (by rw [lstartsCI_eq_listStartsWith, hlow]; rfl)]
    rw [tryTlds_step_skip (u := cs "fr")
        (by rw [lstartsCI_eq_listStartsWith, hlow]; rfl)]
    rw [tryTlds_step_skip (u := cs "es")
        (by rw [lstartsCI_eq_listStartsWith, hlow]; rfl)]
    rw [tryTlds_step_skip (u := cs "it")
        (by rw [lstartsCI_eq_listStartsWith, hlow]; rfl)]
    rw [tryTlds_step_skip (u := cs "ca")
        (by rw [lstartsCI_eq_listStartsWith, hlow]; rfl)]
    rw [tryTlds_step_skip (u := cs "com.au")
        (by rw [lstartsCI_eq_listStartsWith, hlow]; rfl)]
    rw [tryTlds_step_skip (u := cs "co.jp")
        (by rw [lstartsCI_eq_listStartsWith, hlow]; rfl)]
    rw [tryTlds_step_skip (u := cs "cn")
        (by rw [lstartsCI_eq_listStartsWith, hlow]; rfl)]
    rw [tryTlds_step_match hst hdrop hlast, htake]

/-- Re-matching the canonical reconstruction: the long-link regex on
`https://{d}/dp/{a}?tag={t}` finds the same domain and ASIN, provided
`d` lowers to an allow-listed Amazon domain, `a` is a ten-character
alphanumeric ASIN, and nothing after `dp/` carries a slash. -/
theorem amazonLongMatch_canonical {d tld a q : List Char}
    (htld : tld ∈ tlds) (hd : lowerS d = cs "amazon." ++ tld)
    (h10 : a.length = 10) (hal : a.all isAlnumC = true)
    (hnosl : '/' ∉ a ++ q) :
    amazonLongMatch
      (cs "https://" ++ (d ++ (cs "/dp/" ++ (a ++ q)))) =
      some (d, a) := by
  have hlast : lastDpMatch (cs "dp/" ++ (a ++ q)) = some a :=
    lastDpMatch_canonical h10 hal hnosl
  have hdlen : 7 ≤ d.length := by
    have h1 : (lowerS d).length = d.length := List.length_map _ _
    rw [hd] at h1
    rw [← h1, List.length_append, show (cs "amazon.").length = 7 from rfl]
    omega
  have hd7 : lowerS (d.take 7) = cs "amazon." := by
    show List.map lowerC (d.take 7) = cs "amazon."
    rw [List.map_take]
    unfold lowerS at hd
    rw [hd]
    rw [show (7 : Nat) = (cs "amazon.").length from rfl, List.take_left]
  have hdtl : lowerS (d.drop 7) = tld := by
    show List.map lowerC (d.drop 7) = tld
    rw [List.map_drop]
    unfold lowerS at hd
    rw [hd]
    rw [show (7 : Nat) = (cs "amazon.").length from rfl, List.drop_left]
  have h7len : (d.take 7).length = 7 := by
    rw [List.length_take]
    omega
  have htry : tryAmazonAt
      (d ++ (cs "/dp/" ++ (a ++ q))) = some (d, a) := by
    conv_lhs => rw [← List.take_append_drop 7 d, List.append_assoc]
    unfold tryAmazonAt
    have hst : lstartsCI (cs "amazon.")
        (d.take 7 ++ (d.drop 7 ++ (cs "/dp/" ++ (a ++ q)))) =
          true := by
      rw [← hd7]
      exact lstartsCI_of_lowerS
    have hdrop7 : (d.take 7 ++
        (d.drop 7 ++ (cs "/dp/" ++ (a ++ q)))).drop 7 =
        d.drop 7 ++ (cs "/dp/" ++ (a ++ q)) :=
      List.drop_left' h7len
    have htake7 : (d.take 7 ++
        (d.drop 7 ++ (cs "/dp/" ++ (a ++ q)))).take 7 =
        d.take 7 :=
      List.take_left' h7len
    simp only [hst, if_true, hdrop7,
      tryTlds_canonical htld hdtl hlast, htake7]
    rw [List.take_append_drop]
  obtain ⟨z1, zs, hdz, hz1, hzs⟩ := exists_cons_of_lowerS_cons
    (show lowerS d = 'a' :: (cs "mazon." ++ tld) from hd)
  show amazonLongMatch ('h' :: 't' :: 't' :: 'p' :: 's' :: ':' :: '/' :: '/'
      :: (d ++ (cs "/dp/" ++ (a ++ q)))) = some (d, a)
  rw [amazonLongMatch_cons_none (tryAmazonAt_head_ne (by decide)),
    amazonLongMatch_cons_none (tryAmazonAt_head_ne (by decide)),
    amazonLongMatch_cons_none (tryAmazonAt_head_ne (by decide)),
    amazonLongMatch_cons_none (tryAmazonAt_head_ne (by decide)),
    amazonLongMatch_cons_none (tryAmazonAt_head_ne (by decide)),
    amazonLongMatch_cons_none (tryAmazonAt_head_ne (by decide)),
    amazonLongMatch_cons_none (tryAmazonAt_head_ne (by decide)),
    amazonLongMatch_cons_none (tryAmazonAt_head_ne (by decide))]
  rw [hdz, List.cons_append] at htry ⊢
  exact amazonLongMatch_cons_some htry

theorem valid_tag_ne_nil {t : List Char} (hv : isValidAmazonTag t = true) :
    t ≠ [] := by
  intro h
  subst h
  exact absurd hv (by decide)

theorem valid_tag_not_mem {t : List Char} (hv : isValidAmazonTag t = true)
    {c : Char} (hna : isAlnumC c = false) (hdash : c ≠ '-') : c ∉ t := by
  intro hm
  rw [isValidAmazonTag_false_of_badChar hm hna hdash] at hv
  cases hv

theorem no_slash_canonical_tail {a t : List Char}
    (hal : a.all isAlnumC = true) (hv : isValidAmazonTag t = true) :
    '/' ∉ a ++ (cs "?tag=" ++ t) := by
  intro hmem
  rcases List.mem_append.mp hmem with hm | hm
  · have := List.all_eq_true.mp hal _ hm
    exact absurd this (by decide)
  · rcases List.mem_append.mp hm with hm2 | hm2
    · exact absurd hm2 (by decide)
    · exact valid_tag_not_mem hv (by decide) (by decide) hm2

theorem stripAff_stripAff_tag (q : List (List Char × List Char))
    (t : List Char) :
    stripAff (stripAff q ++ [(cs "tag", t)]) = stripAff q := by
  unfold stripAff
  rw [List.filter_append, List.filter_filter]
  simp [isAffKey]

theorem stripAff_no_tagkey {q : List (List Char × List Char)} :
    ∀ kv ∈ stripAff q, (kv.1 == cs "tag") = false := by
  intro kv hkv
  have h1 := List.of_mem_filter hkv
  rw [Bool.not_eq_true'] at h1
  unfold isAffKey at h1
  simp only [Bool.or_eq_false_iff] at h1
  exact h1.1.1.1.1

theorem filter_tag_of_strip (q : List (List Char × List Char))
    (tB : List Char) :
    (stripAff q ++ [(cs "tag", tB)]).filter (fun p => p.1 == cs "tag") =
      [(cs "tag", tB)] := by
  rw [List.filter_append]
  have h1 : (stripAff q).filter (fun p => p.1 == cs "tag") = [] := by
    rw [List.filter_eq_nil_iff]
    intro kv hkv
    rw [stripAff_no_tagkey kv hkv]
    simp
  rw [h1]
  simp

/-- Parsing the canonical bot output `https://{d}/dp/{a}?tag={tB}`
under the URL model: host `d`, path `/dp/{a}`, and exactly the single
query parameter `tag={tB}`. -/
theorem parse_canonical {d a tB : List Char}
    (hdne : d ≠ [])
    (hdch : ∀ c ∈ d, (c == '/' || c == '?') = false)
    (hal : a.all isAlnumC = true)
    (hB : isValidAmazonTag tB = true) :
    parseUrl
        (cs "https://" ++ (d ++ (cs "/dp/" ++ (a ++ (cs "?tag=" ++ tB))))) =
      some ⟨cs "https", d, cs "/dp/" ++ a, [(cs "tag", tB)]⟩ := by
  show parseUrl (cs "https" ++ (':' :: '/' :: '/' ::
      (d ++ ('/' :: 'd' :: 'p' :: '/' ::
        (a ++ ('?' :: (cs "tag=" ++ tB))))))) = _
  unfold parseUrl
  rw [schemeSplit_roundtrip (Or.inr rfl)]
  have hspan1 := @spanNot_of_append (fun c => c == '/' || c == '?') d '/'
      ('d' :: 'p' :: '/' :: (a ++ ('?' :: (cs "tag=" ++ tB)))) hdch (by rfl)
  simp only [hspan1, (isEmpty_false_iff d).mpr hdne, Bool.false_eq_true,
    if_false]
  have hpath : ∀ c ∈ ('/' :: 'd' :: 'p' :: '/' :: a), (c == '?') = false := by
    intro c hc
    simp only [List.mem_cons] at hc
    rcases hc with rfl | rfl | rfl | rfl | hc
    · rfl
    · rfl
    · rfl
    · rfl
    · have h2 := List.all_eq_true.mp hal _ hc
      rw [beq_eq_false_iff_ne]
      intro hcon
      subst hcon
      exact absurd h2 (by decide)
  have hspan2 := @spanNot_of_append (fun ch => ch == '?')
      ('/' :: 'd' :: 'p' :: '/' :: a) '?' (cs "tag=" ++ tB) hpath (by rfl)
  simp only [List.cons_append] at hspan2
  have hq : parseQuery (cs "tag=" ++ tB) = [(cs "tag", tB)] := by
    have hamp : '&' ∉ cs "tag=" ++ tB := by
      intro hm
      rcases List.mem_append.mp hm with h1 | h1
      · exact absurd h1 (by decide)
      · exact valid_tag_not_mem hB (by decide) (by decide) h1
    unfold parseQuery
    rw [@splitOnChar_no_sep '&' (cs "tag=" ++ tB) hamp]
    have hpp : parseParam (cs "tag=" ++ tB) = (cs "tag", tB) := by
      show parseParam (cs "tag" ++ '=' :: tB) = (cs "tag", tB)
      unfold parseParam
      rw [breakAt_append_sep (by decide)]
    have hne2 : cs "tag=" ++ tB ≠ [] := fun h => List.noConfusion h
    simp [hpp, hne2]
  simp only [show (('/' : Char) == '?') = false from rfl, Bool.false_eq_true,
    if_false, hspan2, hq]
  rfl

/-! ## Claim C6 -/

/-- C6 counterexample: the spec's end-to-end message
"check this out amazon.com/dp/B00005N5PF thanks" carries no
`https?://` token, so both pipelines find no URL at all: the webhook
replies `noUrlApi` and the bot replies `notAmazonBot`; nothing is
extracted or rewritten. -/
theorem C6_counterexample :
    findUrl (cs "check this out amazon.com/dp/B00005N5PF thanks") = none ∧
    handleApi (some (cs "store-20")) (fun _ => none)
        (cs "check this out amazon.com/dp/B00005N5PF thanks") =
      ⟨[.noUrlApi], some (cs "store-20")⟩ ∧
    handleBot false (some (cs "store-20")) (fun _ => none)
        (cs "check this out amazon.com/dp/B00005N5PF thanks") =
      ⟨[.notAmazonBot], false, some (cs "store-20")⟩ := by decide

/-- C6 (amended): with the scheme supplied —
"check this out https://www.amazon.com/dp/B00005N5PF thanks" — the
pipelines extract the URL token, classify it as a direct Amazon link,
and emit an affiliate URL whose query contains tag=store-20 and whose
path still contains /dp/B00005N5PF (the bot's minimal reconstruction
drops the `www.` host prefix). -/
theorem C6_theorem :
    findUrl (cs "check this out https://www.amazon.com/dp/B00005N5PF thanks")
      = some (cs "https://www.amazon.com/dp/B00005N5PF") ∧
    anyAmazonDomain (cs "https://www.amazon.com/dp/B00005N5PF") = true ∧
    (amazonLongMatch (cs "https://www.amazon.com/dp/B00005N5PF")).isSome
      = true ∧
    handleApi (some (cs "store-20")) (fun _ => none)
        (cs "check this out https://www.amazon.com/dp/B00005N5PF thanks") =
      ⟨[.affiliate
          (cs "https://www.amazon.com/dp/B00005N5PF?tag=store-20")],
        some (cs "store-20")⟩ ∧
    parseUrl (cs "https://www.amazon.com/dp/B00005N5PF?tag=store-20") =
      some ⟨cs "https", cs "www.amazon.com", cs "/dp/B00005N5PF",
        [(cs "tag", cs "store-20")]⟩ ∧
    handleBot false (some (cs "store-20")) (fun _ => none)
        (cs "check this out https://www.amazon.com/dp/B00005N5PF thanks") =
      ⟨[.affiliateBot (cs "https://amazon.com/dp/B00005N5PF?tag=store-20")],
        false, some (cs "store-20")⟩ ∧
    parseUrl (cs "https://amazon.com/dp/B00005N5PF?tag=store-20") =
      some ⟨cs "https", cs "amazon.com", cs "/dp/B00005N5PF",
        [(cs "tag", cs "store-20")]⟩ := by decide

theorem domain_chars_ok {d tld : List Char} (htld : tld ∈ tlds)
    (hd : lowerS d = cs "amazon." ++ tld) :
    ∀ c ∈ d, (c == '/' || c == '?') = false := by
  intro c hc
  have hmem : lowerC c ∈ cs "amazon." ++ tld := by
    rw [← hd]
    exact List.mem_map_of_mem lowerC hc
  have hslash : ∀ u ∈ tlds, ('/' : Char) ∉ cs "amazon." ++ u := by decide
  have hquest : ∀ u ∈ tlds, ('?' : Char) ∉ cs "amazon." ++ u := by decide
  rw [Bool.or_eq_false_iff]
  constructor
  · rw [beq_eq_false_iff_ne]
    intro hcon
    subst hcon
    exact hslash tld htld hmem
  · rw [beq_eq_false_iff_ne]
    intro hcon
    subst hcon
    exact hquest tld htld hmem

theorem parse_plain_product {asin : List Char}
    (hal : asin.all isAlnumC = true) :
    parseUrl (cs "https://amazon.com/dp/" ++ asin) =
      some ⟨cs "https", cs "amazon.com", cs "/dp/" ++ asin, []⟩ := by
  show parseUrl (cs "https" ++ (':' :: '/' :: '/' ::
      (cs "amazon.com" ++ ('/' :: 'd' :: 'p' :: '/' :: asin)))) = _
  unfold parseUrl
  rw [schemeSplit_roundtrip (Or.inr rfl)]
  have hhost : ∀ c ∈ cs "amazon.com", (c == '/' || c == '?') = false := by
    decide
  have hspan1 := @spanNot_of_append (fun c => c == '/' || c == '?')
      (cs "amazon.com") '/' ('d' :: 'p' :: '/' :: asin) hhost (by rfl)
  simp only [hspan1, show (cs "amazon.com").isEmpty = false from rfl,
    Bool.false_eq_true, if_false]
  have hpath : ∀ c ∈ ('/' :: 'd' :: 'p' :: '/' :: asin),
      (c == '?') = false := by
    intro c hc
    simp only [List.mem_cons] at hc
    rcases hc with rfl | rfl | rfl | rfl | hc
    · rfl
    · rfl
    · rfl
    · rfl
    · have h2 := List.all_eq_true.mp hal _ hc
      rw [beq_eq_false_iff_ne]
      intro hcon
      subst hcon
      exact absurd h2 (by decide)
  have hspan2 := spanNot_all_false hpath
  simp only [show (('/' : Char) == '?') = false from rfl, Bool.false_eq_true,
    if_false, hspan2]
  rfl

/-! ## Claim C9 (amended theorem) -/

/-- C9 (amended): restricted to inputs each rewriter actually rewrites
(the counterexample shows the unrestricted claim fails on inputs the
rewriters return unchanged), double rewriting carries exactly one `tag`
parameter, equal to the second tag.  For the webhook rewriter on any
parseable URL: the final query is the affiliate-stripped original plus
the single `tag=tagB`, every non-affiliate parameter preserved.  For
the bot rewriter on any URL matching the product regex: the result is
the canonical URL, which parses with exactly the single parameter
`tag=tagB` (this strategy by its own contract discards the other query
data).  Tags are taken in validated form, which is all the pipelines
ever store. -/
theorem C9_theorem (url tA tB : List Char)
    (hA : isValidAmazonTag tA = true) (hB : isValidAmazonTag tB = true) :
    (∀ u, parseUrl url = some u →
      parseUrl (convertToAffiliateLink_api
          (convertToAffiliateLink_api url (some tA)) (some tB)) =
        some ⟨u.scheme, u.host, u.path,
          stripAff u.query ++ [(cs "tag", tB)]⟩ ∧
      (stripAff u.query ++ [(cs "tag", tB)]).filter
          (fun p => p.1 == cs "tag") = [(cs "tag", tB)]) ∧
    (∀ d a, amazonLongMatch url = some (d, a) →
      convertToAffiliateLink_bot
          (convertToAffiliateLink_bot url (some tA)) (some tB) =
        cs "https://" ++ d ++ cs "/dp/" ++ a ++ cs "?tag=" ++ tB ∧
      tagParamCount
        (cs "https://" ++ d ++ cs "/dp/" ++ a ++ cs "?tag=" ++ tB) = 1) := by
  have hAne := valid_tag_ne_nil hA
  have hBne := valid_tag_ne_nil hB
  have hAamp : '&' ∉ tA := valid_tag_not_mem hA (by decide) (by decide)
  have hBamp : '&' ∉ tB := valid_tag_not_mem hB (by decide) (by decide)
  constructor
  · intro u hu
    have h1 := parse_convert_api hu hAne hAamp
    have h2 := parse_convert_api h1 hBne hBamp
    simp only [stripAff_stripAff_tag] at h2
    exact ⟨h2, filter_tag_of_strip u.query tB⟩
  · intro d a hm
    obtain ⟨tld, htld, hld, h10, hal, -⟩ := amazonLongMatch_sound hm
    have hnoslA : '/' ∉ a ++ (cs "?tag=" ++ tA) :=
      no_slash_canonical_tail hal hA
    have hbot1 : convertToAffiliateLink_bot url (some tA) =
        cs "https://" ++ d ++ cs "/dp/" ++ a ++ cs "?tag=" ++ tA := by
      unfold convertToAffiliateLink_bot
      simp [hm, (isEmpty_false_iff tA).mpr hAne]
    have hre := amazonLongMatch_canonical htld hld h10 hal hnoslA
    have hbot2 : convertToAffiliateLink_bot
        (convertToAffiliateLink_bot url (some tA)) (some tB) =
        cs "https://" ++ d ++ cs "/dp/" ++ a ++ cs "?tag=" ++ tB := by
      rw [hbot1]
      unfold convertToAffiliateLink_bot
      simp [hre, (isEmpty_false_iff tB).mpr hBne]
    refine ⟨hbot2, ?_⟩
    have hdne : d ≠ [] := by
      intro hcon
      have h0 : ([] : List Char) = cs "amazon." ++ tld := by
        rw [hcon] at hld
        exact hld
      exact List.noConfusion h0.symm
    have hdch := domain_chars_ok htld hld
    have hpc := parse_canonical hdne hdch hal hB
    have hshapeB : cs "https://" ++ d ++ cs "/dp/" ++ a ++ cs "?tag=" ++ tB =
        cs "https://" ++ (d ++ (cs "/dp/" ++ (a ++ (cs "?tag=" ++ tB)))) := by
      simp [List.append_assoc]
    unfold tagParamCount
    rw [hshapeB, hpc]
    simp

/-- Witness for C9 at a concrete product URL with a stale tag and an
unrelated parameter. -/
theorem C9_witness :
    parseUrl (convertToAffiliateLink_api (convertToAffiliateLink_api
        (cs "https://www.amazon.com/dp/B00005N5PF?x=1&tag=old-1")
        (some (cs "a-1"))) (some (cs "b-2"))) =
      some ⟨cs "https", cs "www.amazon.com", cs "/dp/B00005N5PF",
        [(cs "x", cs "1"), (cs "tag", cs "b-2")]⟩ ∧
    convertToAffiliateLink_bot (convertToAffiliateLink_bot
        (cs "https://www.amazon.com/dp/B00005N5PF?x=1&tag=old-1")
        (some (cs "a-1"))) (some (cs "b-2")) =
      cs "https://amazon.com/dp/B00005N5PF?tag=b-2" ∧
    tagParamCount (cs "https://amazon.com/dp/B00005N5PF?tag=b-2") = 1 := by
  have h := C9_theorem
      (cs "https://www.amazon.com/dp/B00005N5PF?x=1&tag=old-1")
      (cs "a-1") (cs "b-2") (by decide) (by decide)
  have hb := h.2 (cs "amazon.com") (cs "B00005N5PF") (by decide)
  have hcanon : cs "https://" ++ cs "amazon.com" ++ cs "/dp/" ++
      cs "B00005N5PF" ++ cs "?tag=" ++ cs "b-2" =
      cs "https://amazon.com/dp/B00005N5PF?tag=b-2" := by decide
  refine ⟨?_, ?_, ?_⟩
  · have h1 := (h.1 ⟨cs "https", cs "www.amazon.com", cs "/dp/B00005N5PF",
        [(cs "x", cs "1"), (cs "tag", cs "old-1")]⟩ (by decide)).1
    rw [h1]
    decide
  · have h2 := hb.1
    rw [h2, hcanon]
  · have h3 := hb.2
    rw [hcanon] at h3
    exact h3

/-! ## Claim C3 -/

/-- C3 counterexample: the two rewriters produce different output on
the same input and tag — the webhook's query surgery keeps the
`www.amazon.com` host while the bot's minimal reconstruction emits the
captured `amazon.com` domain. -/
theorem C3_counterexample :
    convertToAffiliateLink_api (cs "https://www.amazon.com/dp/B00005N5PF")
        (some (cs "store-20")) =
      cs "https://www.amazon.com/dp/B00005N5PF?tag=store-20" ∧
    convertToAffiliateLink_bot (cs "https://www.amazon.com/dp/B00005N5PF")
        (some (cs "store-20")) =
      cs "https://amazon.com/dp/B00005N5PF?tag=store-20" ∧
    convertToAffiliateLink_api (cs "https://www.amazon.com/dp/B00005N5PF")
        (some (cs "store-20")) ≠
      convertToAffiliateLink_bot (cs "https://www.amazon.com/dp/B00005N5PF")
        (some (cs "store-20")) := by decide

/-- C3 (amended): the two implementations do not rewrite uniformly —
they implement different strategies that differ on general input (see
the counterexample) — but they do coincide on canonical product URLs
`https://amazon.com/dp/{ASIN}`, where both emit the URL with
`?tag={tag}` appended. -/
theorem C3_theorem (asin t : List Char) (h10 : asin.length = 10)
    (hal : asin.all isAlnumC = true) (hv : isValidAmazonTag t = true) :
    convertToAffiliateLink_api (cs "https://amazon.com/dp/" ++ asin)
        (some t) =
      cs "https://amazon.com/dp/" ++ asin ++ cs "?tag=" ++ t ∧
    convertToAffiliateLink_bot (cs "https://amazon.com/dp/" ++ asin)
        (some t) =
      cs "https://amazon.com/dp/" ++ asin ++ cs "?tag=" ++ t := by
  have htne := valid_tag_ne_nil hv
  constructor
  · unfold convertToAffiliateLink_api
    simp only [(isEmpty_false_iff t).mpr htne, Bool.false_eq_true, if_false,
      parse_plain_product hal]
    show serializeUrl ⟨cs "https", cs "amazon.com", cs "/dp/" ++ asin,
      [(cs "tag", t)]⟩ = _
    unfold serializeUrl
    simp only [List.append_assoc]
    rfl
  · have hnosl : '/' ∉ asin ++ ([] : List Char) := by
      rw [List.append_nil]
      intro hm
      have h2 := List.all_eq_true.mp hal _ hm
      exact absurd h2 (by decide)
    have hre := @amazonLongMatch_canonical (cs "amazon.com") (cs "com")
      asin ([] : List Char) (by decide) (by decide) h10 hal hnosl
    rw [List.append_nil] at hre
    unfold convertToAffiliateLink_bot
    rw [show amazonLongMatch (cs "https://amazon.com/dp/" ++ asin) =
      some (cs "amazon.com", asin) from hre]
    simp only [(isEmpty_false_iff t).mpr htne, Bool.false_eq_true, if_false]
    simp only [List.append_assoc]
    rfl

/-- Witness for C3 at the ASIN B00005N5PF and tag store-20. -/
theorem C3_witness :
    convertToAffiliateLink_api (cs "https://amazon.com/dp/B00005N5PF")
        (some (cs "store-20")) =
      cs "https://amazon.com/dp/B00005N5PF?tag=store-20" ∧
    convertToAffiliateLink_bot (cs "https://amazon.com/dp/B00005N5PF")
        (some (cs "store-20")) =
      cs "https://amazon.com/dp/B00005N5PF?tag=store-20" := by
  have h := C3_theorem (cs "B00005N5PF") (cs "store-20") (by decide)
      (by decide) (by decide)
  have hurl : cs "https://amazon.com/dp/" ++ cs "B00005N5PF" =
      cs "https://amazon.com/dp/B00005N5PF" := by decide
  have hcanon : cs "https://amazon.com/dp/B00005N5PF" ++
      cs "?tag=" ++ cs "store-20" =
      cs "https://amazon.com/dp/B00005N5PF?tag=store-20" := by decide
  refine ⟨?_, ?_⟩
  · have h1 := h.1
    rw [hurl, hcanon] at h1
    exact h1
  · have h2 := h.2
    rw [hurl, hcanon] at h2
    exact h2

end EaMo
